import Mathlib

/-!
Shallow embedding of the keyword/context retrieval engine of the
MicrosoftLearning/ai-apps repository (the "Ask Andrew" family of apps).

The engine lives in `src/ask-andrew/script.js` (`loadIndex` lines 78-94,
`performSearch` lines 302-416, `searchContext` lines 418-454) and is
copy-pasted byte-for-byte into
`src/computing-history/computing-local/app.js` (lines 1267-1281 and
1572-1724).  JavaScript strings are modelled as Lean `String`
(lists of characters), JS `Map` as an insertion-ordered association list
whose `set` overwrites in place, JS `Set` as an insertion-ordered
duplicate-free list, and JS `Array` as `List`.
-/

/-- A knowledge-base document: `{id, title, content, keywords}` objects of
`index.json`. -/
structure Doc where
  id : String
  title : String
  content : String
  keywords : List String
deriving DecidableEq, Repr

/-- A knowledge-base category: `{category, link, documents}` objects of
`index.json` (field `category` is the display name). -/
structure Category where
  category : String
  link : String
  documents : List Doc
deriving DecidableEq, Repr

/-- A value of the flat keyword lookup map built in `loadIndex`:
`{document, category, link}`. -/
structure KWEntry where
  document : Doc
  category : String
  link : String
deriving DecidableEq, Repr

/-- A per-document match bucket / final query match:
`{document, category, link, matchedKeywords}`.  In the source the
`matchedKeywords` field is a JS `Array` filled with `push`, hence a `List`. -/
structure QueryMatch where
  document : Doc
  category : String
  link : String
  matchedKeywords : List String
deriving DecidableEq, Repr

/-- The value returned by `performSearch`:
`{matches, matchedKeywords: Array.from(filteredKeywords)}`. -/
structure SearchResult where
  «matches» : List QueryMatch
  matchedKeywords : List String
deriving DecidableEq, Repr

/-- The value returned by `searchContext`:
`{context, categories, links, documents}` with `context` possibly `null`. -/
structure ContextResult where
  context : Option String
  categories : List String
  links : List String
  documents : List Doc
deriving DecidableEq, Repr

/-- One n-gram candidate `{text, length}` pushed onto the `nGrams` array. -/
structure NGram where
  text : String
  len : Nat
deriving DecidableEq, Repr

/-! ### JS collection primitives -/

/-- JS `Set.add`: append unless already present (insertion order kept). -/
def setAdd (s : List String) (x : String) : List String :=
  if x ∈ s then s else s ++ [x]

/-- JS `Map.has`. -/
def mapHas {β : Type} (m : List (String × β)) (k : String) : Bool :=
  m.any (fun p => p.1 = k)

/-- JS `Map.get` (keys are unique in a JS map, so first binding wins). -/
def mapGet {β : Type} : List (String × β) → String → Option β
  | [], _ => none
  | (k, v) :: rest, k0 => if k0 = k then some v else mapGet rest k0

/-- JS `Map.set`: overwrite in place when the key exists (JS maps keep the
original insertion position on overwrite), otherwise append. -/
def mapSet {β : Type} (m : List (String × β)) (k : String) (v : β) :
    List (String × β) :=
  if mapHas m k then m.map (fun p => if p.1 = k then (k, v) else p)
  else m ++ [(k, v)]

/-- Update the value stored under key `k` in place. -/
def mapUpdate {β : Type} (m : List (String × β)) (k : String) (f : β → β) :
    List (String × β) :=
  m.map (fun p => if p.1 = k then (p.1, f p.2) else p)

/-- JS `bigStr.includes(smallStr)`: contiguous substring containment, i.e.
some contiguous slice of `big` equals `small`. -/
def strContains (big small : String) : Bool :=
  (List.range (big.data.length + 1)).any
    (fun i => decide ((big.data.drop i).take small.data.length = small.data))

/-- JS `[...new Set(array)]`: first-occurrence-order deduplication. -/
def firstDedup (l : List String) : List String :=
  l.foldl setAdd []

/-- JS `array.join(sep)`. -/
def joinWith (sep : String) : List String → String
  | [] => ""
  | w :: ws => ws.foldl (fun acc x => acc ++ sep ++ x) w

/-! ### String normalization (the regex pipeline of `performSearch`) -/

/-- Characters kept by the regex class `[a-z0-9]`. -/
def isAlphaNumLower (c : Char) : Bool :=
  ('a' ≤ c && c ≤ 'z') || ('0' ≤ c && c ≤ '9')

/-- Model of the regex class `\s` (ASCII range; non-ASCII JS whitespace is
turned into a plain space one step later by the very same pipeline, so the
restriction to this set does not change any output of `normalizeQuestion`). -/
def isJsSpace (c : Char) : Bool :=
  c = ' ' || c = '\t' || c = '\n' || c = '\r' || c = '\x0b' || c = '\x0c'

/-- JS `String.trim` on a character list. -/
def trimChars (l : List Char) : List Char :=
  ((l.dropWhile isJsSpace).reverse.dropWhile isJsSpace).reverse

/-- The regex replacement `/\s+/g → " "`: every maximal run of whitespace
becomes a single space. -/
def collapseWs : List Char → List Char
  | [] => []
  | [c] => if isJsSpace c then [' '] else [c]
  | c :: d :: cs =>
    if isJsSpace c && isJsSpace d then collapseWs (d :: cs)
    else (if isJsSpace c then ' ' else c) :: collapseWs (d :: cs)

/-- JS `str.split(' ')` (in particular `"".split(' ')` is `[""]`). -/
def splitOnSpace : List Char → List (List Char)
  | [] => [[]]
  | c :: cs =>
    match splitOnSpace cs with
    | w :: ws => if c = ' ' then [] :: w :: ws else (c :: w) :: ws
    | [] => [[c]]

/-- The replacement `/[^a-z0-9\s]/g → " "` applied to one character. -/
def replaceChar (c : Char) : Char :=
  if isAlphaNumLower c || isJsSpace c then c else ' '

namespace AskAndrew

/-- `userQuestion.toLowerCase().trim()
      .replace(/[^a-z0-9\s]/g, ' ').replace(/\s+/g, ' ').trim()`. -/
def normalizeQuestion (q : String) : List Char :=
  let lower := trimChars (q.data.map Char.toLower)
  trimChars (collapseWs (lower.map replaceChar))

/-- `const words = normalizedQuestion.split(' ')`. -/
def wordsOf (q : String) : List String :=
  (splitOnSpace (normalizeQuestion q)).map String.mk

/-! ### N-gram extraction -/

/-- One window loop of `performSearch`:
`for (let i = 0; i <= words.length - k; i++)
   push({text: words.slice(i, i + k).join(' '), length: k})`. -/
def nGramWindows (k : Nat) (words : List String) : List NGram :=
  (List.range (words.length + 1 - k)).map
    (fun i => ⟨joinWith " " ((words.drop i).take k), k⟩)

/-- The `stopWords` array of `performSearch`. -/
def stopWords : List String :=
  ["what", "is", "are", "the", "a", "an", "how", "does", "do", "can",
   "about", "tell", "me", "explain", "describe", "show", "give"]

/-- The `nGrams` array of `performSearch`: trigrams, then bigrams, then the
unigrams of length at least 2 that are not stop words. -/
def extractNGrams (q : String) : List NGram :=
  let words := wordsOf q
  nGramWindows 3 words ++ nGramWindows 2 words ++
    (words.filter
      (fun w => decide (2 ≤ w.length) && !(stopWords.contains w))).map
      (fun w => ⟨w, 1⟩)

/-! ### Matching n-grams against the keyword index -/

/-- The two accumulators of the matching loop: the `matchedKeywords` JS `Set`
and the `documentMatches` JS `Map` keyed by `doc.id`. -/
structure MatchState where
  matchedKeywords : List String
  buckets : List (String × QueryMatch)
deriving DecidableEq, Repr

/-- One iteration of `nGrams.forEach` in `performSearch`: look the n-gram
text up in the keyword map; on a hit, add the text to the matched-keyword
set, create the per-document bucket if absent, and push the text onto that
bucket's `matchedKeywords` array. -/
def matchStep (km : List (String × KWEntry)) (st : MatchState) (ng : NGram) :
    MatchState :=
  match mapGet km ng.text with
  | none => st
  | some e =>
    let mk := setAdd st.matchedKeywords ng.text
    let docId := e.document.id
    let b0 :=
      if mapHas st.buckets docId then st.buckets
      else st.buckets ++ [(docId, ⟨e.document, e.category, e.link, []⟩)]
    ⟨mk, mapUpdate b0 docId
      (fun b => { b with matchedKeywords := b.matchedKeywords ++ [ng.text] })⟩

/-- The whole matching loop over the extracted n-grams. -/
def matchNGrams (km : List (String × KWEntry)) (ngrams : List NGram) :
    MatchState :=
  ngrams.foldl (matchStep km) ⟨[], []⟩

/-! ### Subset filtering -/

/-- `keyword.split(' ').length`, the comparator metric of the sort. -/
def wordCount (s : String) : Nat :=
  (splitOnSpace s.data).length

/-- Stable insertion by descending word count: the element goes after every
element of strictly greater word count and before the first element of equal
or smaller word count. -/
def insertByWordCount (x : String) : List String → List String
  | [] => [x]
  | y :: ys =>
    if wordCount y ≤ wordCount x then x :: y :: ys
    else y :: insertByWordCount x ys

/-- Model of `Array.from(matchedKeywords).sort((a, b) => bWords - aWords)`:
JS `sort` is stable, and a stable sort under the total preorder
"descending word count" has a unique result, computed here by stable
insertion sort. -/
def sortByWordCountDesc : List String → List String
  | [] => []
  | x :: xs => insertByWordCount x (sortByWordCountDesc xs)

/-- One iteration of the filtering loop: keep `kw` unless some already-kept
`existing` satisfies `existing !== keyword && existing.includes(keyword)`. -/
def keepStep (kept : List String) (kw : String) : List String :=
  if kept.any (fun ex => !(decide (ex = kw)) && strContains ex kw) then kept
  else kept ++ [kw]

/-- The `filteredKeywords` set: walk the sorted keywords, dropping any that
is a strict substring of an already-kept different keyword. -/
def filterSubsets (l : List String) : List String :=
  (sortByWordCountDesc l).foldl keepStep []

/-! ### Rebuilding the final matches and `performSearch` itself -/

/-- `documentMatches.forEach`: keep, per bucket, only the keywords that
survived filtering, and drop buckets left with none. -/
def rebuildMatches (buckets : List (String × QueryMatch))
    (filtered : List String) : List QueryMatch :=
  buckets.foldl
    (fun acc p =>
      let valid := p.2.matchedKeywords.filter (fun kw => filtered.contains kw)
      if valid.length > 0 then
        acc ++ [{ p.2 with matchedKeywords := valid }]
      else acc)
    []

/-- `performSearch(userQuestion)` of `src/ask-andrew/script.js`
(lines 302-416), as a function of the keyword map held in `this.keywordMap`. -/
def performSearch (km : List (String × KWEntry)) (q : String) : SearchResult :=
  let nGrams := extractNGrams q
  let st := matchNGrams km nGrams
  let filteredKeywords := filterSubsets st.matchedKeywords
  ⟨rebuildMatches st.buckets filteredKeywords, filteredKeywords⟩

/-! ### The keyword index builder of `loadIndex` -/

/-- `keyword.toLowerCase().trim()`. -/
def normalizeKeyword (kw : String) : String :=
  String.mk (trimChars (kw.data.map Char.toLower))

/-- The keyword-map construction of `loadIndex` (lines 78-94): iterate every
category, document and raw keyword, normalize, skip empty results, and
`Map.set` the entry (so a later document silently overwrites an earlier
binding of the same normalized keyword). -/
def buildKeywordMap (indexData : List Category) : List (String × KWEntry) :=
  indexData.foldl
    (fun m cat =>
      cat.documents.foldl
        (fun m doc =>
          doc.keywords.foldl
            (fun m kw =>
              let normalizedKeyword := normalizeKeyword kw
              if normalizedKeyword ≠ "" then
                mapSet m normalizedKeyword ⟨doc, cat.category, cat.link⟩
              else m)
            m)
        m)
    []

/-! ### The context assembler -/

/-- `searchContext(userQuestion)` of `src/ask-andrew/script.js`
(lines 418-454), as a function of the loaded `this.indexData` (the keyword
map is the one `loadIndex` builds from the same data). -/
def searchContext (indexData : List Category) (q : String) : ContextResult :=
  let sr := performSearch (buildKeywordMap indexData) q
  match sr.matches with
  | [] =>
    match indexData.find? (fun cat => cat.category = "AI Concepts") with
    | some aiConceptsCategory =>
      match aiConceptsCategory.documents with
      | fallbackDoc :: _ =>
        ⟨some ("[" ++ aiConceptsCategory.category ++ "]\n" ++
            fallbackDoc.content),
         [aiConceptsCategory.category], [aiConceptsCategory.link],
         [fallbackDoc]⟩
      | [] => ⟨none, [], [], []⟩
    | none => ⟨none, [], [], []⟩
  | _ :: _ =>
    let contextParts := sr.matches.map (fun m =>
      "[" ++ m.category ++ " - " ++ m.document.title ++ "]\n" ++
        m.document.content)
    ⟨some (joinWith "\n\n" contextParts),
     firstDedup (sr.matches.map (fun m => m.category)),
     firstDedup (sr.matches.map (fun m => m.link)),
     sr.matches.map (fun m => m.document)⟩

end AskAndrew

/-! ### Concrete knowledge indexes used to instantiate the theorems -/

/-- Document `d1` of the concrete scenario of spec section 8. -/
def specDoc1 : Doc :=
  ⟨"d1", "Neural Networks", "Neural networks are...",
   ["neural network", "neural networks", "deep learning"]⟩

/-- Document `d2` of the concrete scenario of spec section 8. -/
def specDoc2 : Doc :=
  ⟨"d2", "Tokenization", "Tokenization splits...",
   ["tokenization", "token"]⟩

/-- The two-category knowledge index of the concrete scenario of spec
section 8. -/
def specIndex8 : List Category :=
  [⟨"AI Concepts", "https://example.com/ai", [specDoc1]⟩,
   ⟨"NLP", "https://example.com/nlp", [specDoc2]⟩]

/-- A one-document index whose only keyword is `token`. -/
def tokenIndex : List Category :=
  [⟨"C", "L", [⟨"dd", "T", "X", ["token"]⟩]⟩]

/-- An index holding the three keywords `large language models`,
`large language model` and `language model` on one document. -/
def llmIndex : List Category :=
  [⟨"ML", "L", [⟨"m1", "LLMs", "Y",
    ["large language models", "large language model", "language model"]⟩]⟩]

/-- Three categories where the first two share one link. -/
def alignIndex : List Category :=
  [⟨"A", "L1", [⟨"a1", "tA", "cA", ["alpha"]⟩]⟩,
   ⟨"B", "L1", [⟨"b1", "tB", "cB", ["beta"]⟩]⟩,
   ⟨"C", "L2", [⟨"c1", "tC", "cC", ["gamma"]⟩]⟩]

/-! ### C5: the section-8 tokenization scenario -/

/-- C5, counterexample: on the section-8 knowledge index, the question
`Tell me about tokenization and tokens` yields a single query match whose
`matchedKeywords` is `["tokenization"]`, and the keyword `token` is not among
the kept keywords — the claimed result set `{"tokenization", "token"}` is
wrong, because no n-gram of the question equals `token` (the question word
is `tokens`, and matching is exact string equality). -/
theorem scenario_tokenization_c5_counterexample :
    ((AskAndrew.performSearch (AskAndrew.buildKeywordMap specIndex8)
        "Tell me about tokenization and tokens").matches.map
      (fun m => m.matchedKeywords)) = [["tokenization"]] ∧
    "token" ∉ (AskAndrew.performSearch (AskAndrew.buildKeywordMap specIndex8)
        "Tell me about tokenization and tokens").matchedKeywords := by
  constructor
  · rfl
  · decide

/-- C5, amended: on the section-8 knowledge index, the question
`Tell me about tokenization and tokens` produces exactly one QueryMatch, for
document `d2`, whose `matchedKeywords` equals `["tokenization"]` (the word
`tokens` matches no keyword by exact equality, so `token` never fires; had
the question said `token`, subset filtering would still have dropped it as a
substring of the kept `tokenization`). -/
theorem scenario_tokenization_c5 :
    AskAndrew.performSearch (AskAndrew.buildKeywordMap specIndex8)
        "Tell me about tokenization and tokens" =
      ⟨[⟨specDoc2, "NLP", "https://example.com/nlp", ["tokenization"]⟩],
       ["tokenization"]⟩ := by
  rfl

/-! ### C1: the fallback behaviour of the context assembler -/

/-- C1: whenever the matcher yields zero query matches, `searchContext`
returns the fallback ContextResult built from the first document of the
first category named `AI Concepts` when that category exists and has at
least one document (`context` is `[name]\ncontent`, `categories`, `links`
and `documents` are the matching singletons); when that category is absent
or has no documents it returns `{context: null, categories: [], links: [],
documents: []}`; and `context` is non-null whenever at least one query
match survives. -/
theorem searchContext_fallback_c1 (indexData : List Category) (q : String) :
    ((AskAndrew.performSearch (AskAndrew.buildKeywordMap indexData)
        q).matches = [] →
      (match indexData.find? (fun cat => cat.category = "AI Concepts") with
       | some cat =>
         match cat.documents with
         | d :: _ =>
           AskAndrew.searchContext indexData q =
             ⟨some ("[" ++ cat.category ++ "]\n" ++ d.content),
              [cat.category], [cat.link], [d]⟩
         | [] => AskAndrew.searchContext indexData q = ⟨none, [], [], []⟩
       | none => AskAndrew.searchContext indexData q = ⟨none, [], [], []⟩)) ∧
    ((AskAndrew.performSearch (AskAndrew.buildKeywordMap indexData)
        q).matches ≠ [] →
      ∃ s, (AskAndrew.searchContext indexData q).context = some s) := by
  constructor
  · intro h
    cases hfind : indexData.find? (fun cat => cat.category = "AI Concepts") with
    | none =>
      simp only [AskAndrew.searchContext, h, hfind]
    | some cat =>
      cases hdocs : cat.documents with
      | nil =>
        simp only [AskAndrew.searchContext, h, hfind, hdocs]
      | cons d ds =>
        simp only [AskAndrew.searchContext, h, hfind, hdocs]
  · intro h
    obtain ⟨m, ms, hm⟩ := List.exists_cons_of_ne_nil h
    have hc : (AskAndrew.searchContext indexData q).context =
        some (joinWith "\n\n" ((m :: ms).map (fun x =>
          "[" ++ x.category ++ " - " ++ x.document.title ++ "]\n" ++
            x.document.content))) := by
      simp only [AskAndrew.searchContext, hm]
    exact ⟨_, hc⟩

/-- C1, witness: on the section-8 index, a nonsense question has zero
matches and receives the `AI Concepts` fallback, while a neural-network
question produces matches and a non-null context. -/
theorem searchContext_fallback_c1_witness :
    (AskAndrew.searchContext specIndex8 "asdkjasdj random nonsense" =
      ⟨some ("[AI Concepts]\nNeural networks are..."),
       ["AI Concepts"], ["https://example.com/ai"], [specDoc1]⟩) ∧
    ∃ s, (AskAndrew.searchContext specIndex8
        "What is a neural network?").context = some s := by
  constructor
  · have h := (searchContext_fallback_c1 specIndex8
      "asdkjasdj random nonsense").1 (by rfl)
    simpa using h
  · exact (searchContext_fallback_c1 specIndex8
      "What is a neural network?").2 (by decide)

/-! ### C3: characterization of the candidate n-grams -/

/-- Contiguous `k`-word windows of a word list, written as plain sliding
windows (independent formulation to compare with the index-based loops of
`performSearch`). -/
def slidingWindows (k : Nat) : List String → List (List String)
  | [] => if k = 0 then [[]] else []
  | x :: xs =>
    if k ≤ (x :: xs).length then (x :: xs).take k :: slidingWindows k xs
    else []

/-- The normalization pipeline exactly as the spec words it: lowercase,
replace every character outside `[a-z0-9\s]` with a space, collapse
consecutive whitespace, trim — without the initial `trim()` the code also
performs (shown redundant below). -/
def specNormalize (q : String) : List Char :=
  trimChars (collapseWs ((q.data.map Char.toLower).map replaceChar))

/-- The normalized word sequence as the spec describes it. -/
def specWords (q : String) : List String :=
  (splitOnSpace (specNormalize q)).map String.mk

/-- The space character is JS whitespace. -/
theorem isJsSpace_space : isJsSpace ' ' = true := by decide

/-- A character surviving `replaceChar` unchanged when it is whitespace. -/
theorem replaceChar_of_isJsSpace {c : Char} (h : isJsSpace c = true) :
    replaceChar c = c := by
  unfold replaceChar
  simp [h]

/-- Collapsing after a nonempty all-whitespace prefix is collapsing after a
single space. -/
theorem collapseWs_allSpace_prepend (v : List Char) :
    ∀ u : List Char, u ≠ [] → (∀ c ∈ u, isJsSpace c = true) →
      collapseWs (u ++ v) = collapseWs (' ' :: v)
  | [], hu, _ => absurd rfl hu
  | [s], _, h => by
    have hs : isJsSpace s = true := h s (by simp)
    cases v with
    | nil => simp [collapseWs, hs, isJsSpace_space]
    | cons d vs =>
      show collapseWs (s :: d :: vs) = collapseWs (' ' :: d :: vs)
      by_cases hd : isJsSpace d = true
      · simp [collapseWs, hs, hd, isJsSpace_space]
      · simp [collapseWs, hs, hd, isJsSpace_space]
  | s :: e :: u2, _, h => by
    have hs : isJsSpace s = true := h s (by simp)
    have he : isJsSpace e = true := h e (by simp)
    have step : collapseWs ((s :: e :: u2) ++ v) =
        collapseWs ((e :: u2) ++ v) := by
      show collapseWs (s :: e :: (u2 ++ v)) = collapseWs (e :: (u2 ++ v))
      simp [collapseWs, hs, he]
    rw [step]
    exact collapseWs_allSpace_prepend v (e :: u2) (by simp)
      (fun c hc => h c (List.mem_cons_of_mem s hc))

/-- A nonempty all-whitespace list collapses to a single space. -/
theorem collapseWs_allSpace (w : List Char) (hw : w ≠ [])
    (h : ∀ c ∈ w, isJsSpace c = true) : collapseWs w = [' '] := by
  have h0 := collapseWs_allSpace_prepend [] w hw h
  rw [List.append_nil] at h0
  rw [h0]
  decide

/-- Appending a nonempty all-whitespace suffix changes the collapsed list by
at most one trailing space. -/
theorem collapseWs_allSpace_append (w : List Char) (hw : w ≠ [])
    (h : ∀ c ∈ w, isJsSpace c = true) :
    ∀ v : List Char, collapseWs (v ++ w) = collapseWs v ∨
      collapseWs (v ++ w) = collapseWs v ++ [' ']
  | [] => by
    right
    simpa [collapseWs] using collapseWs_allSpace w hw h
  | [c] => by
    obtain ⟨s, ws, rfl⟩ : ∃ s ws, w = s :: ws := by
      cases w with
      | nil => exact absurd rfl hw
      | cons s ws => exact ⟨s, ws, rfl⟩
    have hs : isJsSpace s = true := h s (by simp)
    have hW : collapseWs (s :: ws) = [' '] := collapseWs_allSpace _ hw h
    by_cases hc : isJsSpace c = true
    · left
      show collapseWs (c :: s :: ws) = collapseWs [c]
      have e1 : collapseWs (c :: s :: ws) = collapseWs (s :: ws) := by
        simp only [collapseWs, hs, hc, Bool.and_self, if_true]
      rw [e1, hW]
      simp [collapseWs, hc]
    · right
      have hc' : isJsSpace c = false := by
        revert hc
        cases isJsSpace c <;> simp
      show collapseWs (c :: s :: ws) = collapseWs [c] ++ [' ']
      have e1 : collapseWs (c :: s :: ws) = c :: collapseWs (s :: ws) := by
        simp only [collapseWs, hs, hc', Bool.false_and, if_false,
          Bool.false_eq_true]
      rw [e1, hW]
      simp [collapseWs, hc']
  | c :: e :: v2 => by
    have ih := collapseWs_allSpace_append w hw h (e :: v2)
    show collapseWs (c :: e :: (v2 ++ w)) = collapseWs (c :: e :: v2) ∨
      collapseWs (c :: e :: (v2 ++ w)) = collapseWs (c :: e :: v2) ++ [' ']
    have hcons : (e :: v2) ++ w = e :: (v2 ++ w) := rfl
    by_cases hce : (isJsSpace c && isJsSpace e) = true
    · have h1 : collapseWs (c :: e :: (v2 ++ w)) =
          collapseWs (e :: (v2 ++ w)) := by
        simp only [collapseWs, hce, if_true]
      have h2 : collapseWs (c :: e :: v2) = collapseWs (e :: v2) := by
        simp only [collapseWs, hce, if_true]
      rw [h1, h2, ← hcons]
      exact ih
    · have hce' : (isJsSpace c && isJsSpace e) = false := by
        revert hce
        cases isJsSpace c <;> cases isJsSpace e <;> simp
      have h1 : collapseWs (c :: e :: (v2 ++ w)) =
          (if isJsSpace c then ' ' else c) :: collapseWs (e :: (v2 ++ w)) := by
        simp only [collapseWs, hce', Bool.false_eq_true, if_false]
      have h2 : collapseWs (c :: e :: v2) =
          (if isJsSpace c then ' ' else c) :: collapseWs (e :: v2) := by
        simp only [collapseWs, hce', Bool.false_eq_true, if_false]
      rw [h1, h2, ← hcons]
      rcases ih with h3 | h3
      · left
        rw [h3]
      · right
        rw [h3]
        rfl

/-- Trimming ignores a leading space. -/
theorem trimChars_cons_space (x : List Char) :
    trimChars (' ' :: x) = trimChars x := by
  unfold trimChars
  rw [List.dropWhile_cons]
  simp [isJsSpace_space]

/-- Trimming ignores a trailing space. -/
theorem trimChars_append_space (x : List Char) :
    trimChars (x ++ [' ']) = trimChars x := by
  unfold trimChars
  rw [List.dropWhile_append]
  by_cases hx : (x.dropWhile isJsSpace).isEmpty = true
  · rw [if_pos hx]
    rw [List.isEmpty_iff] at hx
    rw [hx]
    decide
  · rw [if_neg hx]
    rw [List.reverse_append]
    simp only [List.reverse_singleton, List.singleton_append,
      List.dropWhile_cons, isJsSpace_space, if_true]

/-- Every list is an all-whitespace prefix, its trim, and an all-whitespace
suffix. -/
theorem trimChars_decomp (l : List Char) :
    ∃ u w, l = u ++ trimChars l ++ w ∧
      (∀ c ∈ u, isJsSpace c = true) ∧ (∀ c ∈ w, isJsSpace c = true) := by
  refine ⟨l.takeWhile isJsSpace,
    ((l.dropWhile isJsSpace).reverse.takeWhile isJsSpace).reverse, ?_, ?_, ?_⟩
  · conv_lhs => rw [← List.takeWhile_append_dropWhile isJsSpace l]
    rw [List.append_assoc]
    congr 1
    conv_lhs => rw [← List.reverse_reverse (l.dropWhile isJsSpace),
      ← List.takeWhile_append_dropWhile isJsSpace
        (l.dropWhile isJsSpace).reverse,
      List.reverse_append]
    rfl
  · intro c hc
    exact List.mem_takeWhile_imp hc
  · intro c hc
    rw [List.mem_reverse] at hc
    exact List.mem_takeWhile_imp hc

/-- An all-whitespace prefix does not change the trimmed collapse. -/
theorem trim_collapse_prepend (u v : List Char)
    (h : ∀ c ∈ u, isJsSpace c = true) :
    trimChars (collapseWs (u ++ v)) = trimChars (collapseWs v) := by
  rcases eq_or_ne u [] with rfl | hu
  · rfl
  · rw [collapseWs_allSpace_prepend v u hu h]
    cases v with
    | nil => decide
    | cons d vs =>
      by_cases hd : isJsSpace d = true
      · have e1 : collapseWs (' ' :: d :: vs) = collapseWs (d :: vs) := by
          simp only [collapseWs, isJsSpace_space, hd, Bool.and_self, if_true]
        rw [e1]
      · have hd' : isJsSpace d = false := by
          revert hd
          cases isJsSpace d <;> simp
        have e1 : collapseWs (' ' :: d :: vs) = ' ' :: collapseWs (d :: vs) := by
          simp only [collapseWs, isJsSpace_space, hd', Bool.and_false,
            Bool.false_eq_true, if_false, if_true]
        rw [e1, trimChars_cons_space]

/-- An all-whitespace suffix does not change the trimmed collapse. -/
theorem trim_collapse_append (v w : List Char)
    (h : ∀ c ∈ w, isJsSpace c = true) :
    trimChars (collapseWs (v ++ w)) = trimChars (collapseWs v) := by
  rcases eq_or_ne w [] with rfl | hw
  · rw [List.append_nil]
  · rcases collapseWs_allSpace_append w hw h v with h1 | h1
    · rw [h1]
    · rw [h1, trimChars_append_space]

/-- The initial `trim()` of the source is redundant: the code's normalized
character sequence equals the spec's pipeline without it. -/
theorem normalizeQuestion_eq_specNormalize (q : String) :
    AskAndrew.normalizeQuestion q = specNormalize q := by
  unfold AskAndrew.normalizeQuestion specNormalize
  obtain ⟨u, w, hdecomp, hu, hw⟩ := trimChars_decomp (q.data.map Char.toLower)
  have hu' : ∀ c ∈ u.map replaceChar, isJsSpace c = true := by
    intro c hc
    rw [List.mem_map] at hc
    obtain ⟨a, ha, rfl⟩ := hc
    rw [replaceChar_of_isJsSpace (hu a ha)]
    exact hu a ha
  have hw' : ∀ c ∈ w.map replaceChar, isJsSpace c = true := by
    intro c hc
    rw [List.mem_map] at hc
    obtain ⟨a, ha, rfl⟩ := hc
    rw [replaceChar_of_isJsSpace (hw a ha)]
    exact hw a ha
  conv_rhs => rw [hdecomp]
  rw [List.map_append, List.map_append, List.append_assoc,
    trim_collapse_prepend _ _ hu', trim_collapse_append _ _ hw']

/-- The index-based window loop of the source generates exactly the sliding
windows, joined with single spaces. -/
theorem nGramWindows_eq_slidingWindows (k : Nat) (hk : 1 ≤ k) :
    ∀ words : List String,
      AskAndrew.nGramWindows k words =
        (slidingWindows k words).map (fun g => (⟨joinWith " " g, k⟩ : NGram))
  | [] => by
    unfold AskAndrew.nGramWindows slidingWindows
    have h0 : ([] : List String).length + 1 - k = 0 := by
      simp only [List.length_nil]
      omega
    rw [h0, if_neg (by omega)]
    rfl
  | x :: xs => by
    by_cases hlen : k ≤ (x :: xs).length
    · have h1 : (x :: xs).length + 1 - k = (xs.length + 1 - k) + 1 := by
        simp only [List.length_cons] at hlen ⊢
        omega
      unfold AskAndrew.nGramWindows
      rw [h1, List.range_succ_eq_map]
      show (⟨joinWith " " (((x :: xs).drop 0).take k), k⟩ : NGram) ::
          ((List.range (xs.length + 1 - k)).map (· + 1)).map
            (fun i => (⟨joinWith " " (((x :: xs).drop i).take k), k⟩ : NGram)) =
        (slidingWindows k (x :: xs)).map (fun g => ⟨joinWith " " g, k⟩)
    
      unfold slidingWindows
      rw [if_pos hlen]
      rw [List.map_cons, List.map_map]
      congr 1
      have hmap : ∀ i : Nat,
          ((fun i => (⟨joinWith " " (((x :: xs).drop i).take k), k⟩ : NGram)) ∘
            (· + 1)) i =
          (fun i => (⟨joinWith " " ((xs.drop i).take k), k⟩ : NGram)) i := by
        intro i
        simp [List.drop_succ_cons]
      rw [List.map_congr_left (fun i _ => hmap i)]
      exact nGramWindows_eq_slidingWindows k hk xs
    · have h0 : (x :: xs).length + 1 - k = 0 := by
        simp only [List.length_cons] at hlen ⊢
        omega
      unfold AskAndrew.nGramWindows slidingWindows
      rw [h0, if_neg hlen]
      rfl

/-- C3: the candidate n-gram records generated from a question are exactly
the contiguous 3-word windows of the normalized word sequence, then the
2-word windows, then the single words of length at least 2 outside the
17-word stop set, in that order; the normalized word sequence is obtained by
lowercasing, replacing every character outside `[a-z0-9\s]` with a space,
collapsing whitespace runs, trimming and splitting on single spaces
(`specWords`). -/
theorem extractNGrams_c3 (q : String) :
    AskAndrew.extractNGrams q =
      (slidingWindows 3 (specWords q)).map
        (fun g => (⟨joinWith " " g, 3⟩ : NGram)) ++
      (slidingWindows 2 (specWords q)).map
        (fun g => (⟨joinWith " " g, 2⟩ : NGram)) ++
      ((specWords q).filter
        (fun w => decide (2 ≤ w.length ∧ w ∉ AskAndrew.stopWords))).map
        (fun w => (⟨w, 1⟩ : NGram)) := by
  have hwords : AskAndrew.wordsOf q = specWords q := by
    unfold AskAndrew.wordsOf specWords
    rw [normalizeQuestion_eq_specNormalize]
  have hlhs : AskAndrew.extractNGrams q =
      AskAndrew.nGramWindows 3 (specWords q) ++
      AskAndrew.nGramWindows 2 (specWords q) ++
      ((specWords q).filter
        (fun w => decide (2 ≤ w.length) &&
          !(AskAndrew.stopWords.contains w))).map
        (fun w => (⟨w, 1⟩ : NGram)) := by
    unfold AskAndrew.extractNGrams
    rw [hwords]
  rw [hlhs, nGramWindows_eq_slidingWindows 3 (by omega),
    nGramWindows_eq_slidingWindows 2 (by omega)]
  congr 2
  apply List.filter_congr
  intro w _
  by_cases h1 : 2 ≤ w.length <;> by_cases h2 : w ∈ AskAndrew.stopWords <;>
    simp [h1, h2]

/-! ### C9: the copy of the engine in `computing-history/computing-local`

The retrieval code of `src/computing-history/computing-local/app.js`
(keyword-map construction lines 1267-1281, `performSearch` lines 1572-1686,
`searchContext` lines 1688-1724) is translated here separately; it is
byte-for-byte the code of `src/ask-andrew/script.js`. -/

namespace ComputingLocal

/-- `userQuestion.toLowerCase().trim()
      .replace(/[^a-z0-9\s]/g, ' ').replace(/\s+/g, ' ').trim()`. -/
def normalizeQuestion (q : String) : List Char :=
  let lower := trimChars (q.data.map Char.toLower)
  trimChars (collapseWs (lower.map replaceChar))

/-- `const words = normalizedQuestion.split(' ')`. -/
def wordsOf (q : String) : List String :=
  (splitOnSpace (normalizeQuestion q)).map String.mk

/-- The window loop of this app's `performSearch`. -/
def nGramWindows (k : Nat) (words : List String) : List NGram :=
  (List.range (words.length + 1 - k)).map
    (fun i => ⟨joinWith " " ((words.drop i).take k), k⟩)

/-- The `stopWords` array of this app's `performSearch`. -/
def stopWords : List String :=
  ["what", "is", "are", "the", "a", "an", "how", "does", "do", "can",
   "about", "tell", "me", "explain", "describe", "show", "give"]

/-- The `nGrams` array of this app's `performSearch`. -/
def extractNGrams (q : String) : List NGram :=
  let words := wordsOf q
  nGramWindows 3 words ++ nGramWindows 2 words ++
    (words.filter
      (fun w => decide (2 ≤ w.length) && !(stopWords.contains w))).map
      (fun w => ⟨w, 1⟩)

/-- One iteration of this app's `nGrams.forEach` matching loop. -/
def matchStep (km : List (String × KWEntry)) (st : AskAndrew.MatchState)
    (ng : NGram) : AskAndrew.MatchState :=
  match mapGet km ng.text with
  | none => st
  | some e =>
    let mk := setAdd st.matchedKeywords ng.text
    let docId := e.document.id
    let b0 :=
      if mapHas st.buckets docId then st.buckets
      else st.buckets ++ [(docId, ⟨e.document, e.category, e.link, []⟩)]
    ⟨mk, mapUpdate b0 docId
      (fun b => { b with matchedKeywords := b.matchedKeywords ++ [ng.text] })⟩

/-- This app's matching loop over the extracted n-grams. -/
def matchNGrams (km : List (String × KWEntry)) (ngrams : List NGram) :
    AskAndrew.MatchState :=
  ngrams.foldl (matchStep km) ⟨[], []⟩

/-- `keyword.split(' ').length` in this app. -/
def wordCount (s : String) : Nat :=
  (splitOnSpace s.data).length

/-- Stable insertion by descending word count (this app's sort). -/
def insertByWordCount (x : String) : List String → List String
  | [] => [x]
  | y :: ys =>
    if wordCount y ≤ wordCount x then x :: y :: ys
    else y :: insertByWordCount x ys

/-- This app's `Array.from(matchedKeywords).sort((a, b) => bWords - aWords)`. -/
def sortByWordCountDesc : List String → List String
  | [] => []
  | x :: xs => insertByWordCount x (sortByWordCountDesc xs)

/-- One iteration of this app's subset-filtering loop. -/
def keepStep (kept : List String) (kw : String) : List String :=
  if kept.any (fun ex => !(decide (ex = kw)) && strContains ex kw) then kept
  else kept ++ [kw]

/-- This app's `filteredKeywords` computation. -/
def filterSubsets (l : List String) : List String :=
  (sortByWordCountDesc l).foldl keepStep []

/-- This app's `documentMatches.forEach` rebuild loop. -/
def rebuildMatches (buckets : List (String × QueryMatch))
    (filtered : List String) : List QueryMatch :=
  buckets.foldl
    (fun acc p =>
      let valid := p.2.matchedKeywords.filter (fun kw => filtered.contains kw)
      if valid.length > 0 then
        acc ++ [{ p.2 with matchedKeywords := valid }]
      else acc)
    []

/-- `performSearch(userQuestion)` of
`src/computing-history/computing-local/app.js` (lines 1572-1686). -/
def performSearch (km : List (String × KWEntry)) (q : String) : SearchResult :=
  let nGrams := extractNGrams q
  let st := matchNGrams km nGrams
  let filteredKeywords := filterSubsets st.matchedKeywords
  ⟨rebuildMatches st.buckets filteredKeywords, filteredKeywords⟩

/-- `keyword.toLowerCase().trim()` in this app's `loadIndex`. -/
def normalizeKeyword (kw : String) : String :=
  String.mk (trimChars (kw.data.map Char.toLower))

/-- The keyword-map construction of this app's `loadIndex`
(lines 1267-1281). -/
def buildKeywordMap (indexData : List Category) : List (String × KWEntry) :=
  indexData.foldl
    (fun m cat =>
      cat.documents.foldl
        (fun m doc =>
          doc.keywords.foldl
            (fun m kw =>
              let normalizedKeyword := normalizeKeyword kw
              if normalizedKeyword ≠ "" then
                mapSet m normalizedKeyword ⟨doc, cat.category, cat.link⟩
              else m)
            m)
        m)
    []

/-- `searchContext(userQuestion)` of
`src/computing-history/computing-local/app.js` (lines 1688-1724). -/
def searchContext (indexData : List Category) (q : String) : ContextResult :=
  let sr := performSearch (buildKeywordMap indexData) q
  match sr.matches with
  | [] =>
    match indexData.find? (fun cat => cat.category = "AI Concepts") with
    | some aiConceptsCategory =>
      match aiConceptsCategory.documents with
      | fallbackDoc :: _ =>
        ⟨some ("[" ++ aiConceptsCategory.category ++ "]\n" ++
            fallbackDoc.content),
         [aiConceptsCategory.category], [aiConceptsCategory.link],
         [fallbackDoc]⟩
      | [] => ⟨none, [], [], []⟩
    | none => ⟨none, [], [], []⟩
  | _ :: _ =>
    let contextParts := sr.matches.map (fun m =>
      "[" ++ m.category ++ " - " ++ m.document.title ++ "]\n" ++
        m.document.content)
    ⟨some (joinWith "\n\n" contextParts),
     firstDedup (sr.matches.map (fun m => m.category)),
     firstDedup (sr.matches.map (fun m => m.link)),
     sr.matches.map (fun m => m.document)⟩

end ComputingLocal

/-- C9: for every keyword map, knowledge index and question, the retrieval
functions of the Ask Andrew app and of the computing-history local app
compute identical results — the same `performSearch` output (matches and
flattened kept-keyword list), the same keyword map, and the same
`searchContext` ContextResult.  The two source files are byte-identical on
these functions, so the translations are definitionally equal. -/
theorem duplicateApps_equiv_c9 (km : List (String × KWEntry))
    (indexData : List Category) (q : String) :
    AskAndrew.performSearch km q = ComputingLocal.performSearch km q ∧
    AskAndrew.buildKeywordMap indexData =
      ComputingLocal.buildKeywordMap indexData ∧
    AskAndrew.searchContext indexData q =
      ComputingLocal.searchContext indexData q := by
  have h_norm : ComputingLocal.normalizeQuestion = AskAndrew.normalizeQuestion :=
    rfl
  have h_words : ComputingLocal.wordsOf = AskAndrew.wordsOf := by
    funext q
    unfold ComputingLocal.wordsOf AskAndrew.wordsOf
    rw [h_norm]
  have h_ngw : ComputingLocal.nGramWindows = AskAndrew.nGramWindows := rfl
  have h_stop : ComputingLocal.stopWords = AskAndrew.stopWords := rfl
  have h_extract : ComputingLocal.extractNGrams = AskAndrew.extractNGrams := by
    funext q
    unfold ComputingLocal.extractNGrams AskAndrew.extractNGrams
    rw [h_words, h_ngw, h_stop]
  have h_mstep : ComputingLocal.matchStep = AskAndrew.matchStep := rfl
  have h_mloop : ComputingLocal.matchNGrams = AskAndrew.matchNGrams := by
    funext km ngrams
    unfold ComputingLocal.matchNGrams AskAndrew.matchNGrams
    rw [h_mstep]
  have h_wc : ComputingLocal.wordCount = AskAndrew.wordCount := rfl
  have h_ins : ComputingLocal.insertByWordCount = AskAndrew.insertByWordCount := by
    funext x l
    induction l with
    | nil => rfl
    | cons y ys ih =>
      show (if ComputingLocal.wordCount y ≤ ComputingLocal.wordCount x then
          x :: y :: ys else y :: ComputingLocal.insertByWordCount x ys) = _
      rw [ih, h_wc]
      rfl
  have h_sort : ComputingLocal.sortByWordCountDesc =
      AskAndrew.sortByWordCountDesc := by
    funext l
    induction l with
    | nil => rfl
    | cons x xs ih =>
      show ComputingLocal.insertByWordCount x
          (ComputingLocal.sortByWordCountDesc xs) = _
      rw [ih, h_ins]
      rfl
  have h_keep : ComputingLocal.keepStep = AskAndrew.keepStep := rfl
  have h_filter : ComputingLocal.filterSubsets = AskAndrew.filterSubsets := by
    funext l
    unfold ComputingLocal.filterSubsets AskAndrew.filterSubsets
    rw [h_sort, h_keep]
  have h_rebuild : ComputingLocal.rebuildMatches = AskAndrew.rebuildMatches :=
    rfl
  have h_search : ComputingLocal.performSearch = AskAndrew.performSearch := by
    funext km q
    unfold ComputingLocal.performSearch AskAndrew.performSearch
    rw [h_extract, h_mloop, h_filter, h_rebuild]
  have h_nk : ComputingLocal.normalizeKeyword = AskAndrew.normalizeKeyword :=
    rfl
  have h_build : ComputingLocal.buildKeywordMap = AskAndrew.buildKeywordMap := by
    funext indexData
    unfold ComputingLocal.buildKeywordMap AskAndrew.buildKeywordMap
    rw [h_nk]
  have h_ctx : ComputingLocal.searchContext = AskAndrew.searchContext := by
    funext indexData q
    unfold ComputingLocal.searchContext AskAndrew.searchContext
    rw [h_search, h_build]
  exact ⟨(congrFun (congrFun h_search km) q).symm,
    (congrFun h_build indexData).symm,
    (congrFun (congrFun h_ctx indexData) q).symm⟩

/-! ### C4: characterization of the keyword index builder -/

/-- The flattened stream of keyword-map insertions in load order: for every
category, document and raw keyword, the pair of its normalization and its
entry, keeping only non-empty normalized keywords (independent spec-side
formulation to compare with the nested fold of `loadIndex`). -/
def keywordOccurrences (indexData : List Category) :
    List (String × KWEntry) :=
  indexData.flatMap (fun cat =>
    cat.documents.flatMap (fun doc =>
      (doc.keywords.map (fun kw =>
        (AskAndrew.normalizeKeyword kw,
         (⟨doc, cat.category, cat.link⟩ : KWEntry)))).filter
        (fun p => decide (p.1 ≠ ""))))

/-- Total number of raw keyword occurrences across all documents. -/
def totalKeywordOccurrences (indexData : List Category) : Nat :=
  (indexData.map (fun cat =>
    (cat.documents.map (fun doc => doc.keywords.length)).sum)).sum

/-- Unfolding equation of `mapGet` on a cons cell. -/
theorem mapGet_cons {β : Type} (a : String) (b : β) (xs : List (String × β))
    (k0 : String) :
    mapGet ((a, b) :: xs) k0 = if k0 = a then some b else mapGet xs k0 := rfl

/-- Looking up in an in-place overwrite is looking up the overwriting value
at its key and the old map elsewhere. -/
theorem mapGet_replaceMap {β : Type} (k : String) (v : β)
    (m : List (String × β)) :
    ∀ k' : String,
      mapGet (m.map (fun p => if p.1 = k then (k, v) else p)) k' =
        if k' = k then (if mapHas m k then some v else none)
        else mapGet m k' := by
  induction m with
  | nil =>
    intro k'
    by_cases h : k' = k <;> simp [mapGet, mapHas, h]
  | cons p rest ih =>
    obtain ⟨a, b⟩ := p
    intro k'
    show mapGet ((if a = k then (k, v) else (a, b)) ::
        rest.map (fun p => if p.1 = k then (k, v) else p)) k' =
      if k' = k then (if mapHas ((a, b) :: rest) k then some v else none)
      else mapGet ((a, b) :: rest) k'
    by_cases hak : a = k
    · rw [if_pos hak, mapGet_cons]
      by_cases hk : k' = k
      · rw [if_pos hk, if_pos hk]
        have h2 : mapHas ((a, b) :: rest) k = true := by
          simp [mapHas, List.any_cons, hak]
        rw [h2, if_pos rfl]
      · rw [if_neg hk, if_neg hk, ih k', if_neg hk, mapGet_cons]
        have hka : ¬ k' = a := fun hh => hk (hh.trans hak)
        rw [if_neg hka]
    · rw [if_neg hak, mapGet_cons]
      by_cases ha : k' = a
      · have hk : ¬ k' = k := by
          intro hh
          exact hak (ha.symm.trans hh)
        rw [if_pos ha, if_neg hk, mapGet_cons, if_pos ha]
      · rw [if_neg ha, ih k']
        have h2 : mapHas ((a, b) :: rest) k = mapHas rest k := by
          simp [mapHas, List.any_cons, hak]
        rw [h2]
        by_cases hk : k' = k
        · rw [if_pos hk, if_pos hk]
        · rw [if_neg hk, if_neg hk, mapGet_cons, if_neg ha]

/-- Appending a fresh binding behaves as a fallback lookup. -/
theorem mapGet_append_single {β : Type} (k : String) (v : β)
    (m : List (String × β)) :
    ∀ k' : String, mapHas m k = false →
      mapGet (m ++ [(k, v)]) k' =
        if k' = k then some v else mapGet m k' := by
  induction m with
  | nil =>
    intro k' _
    by_cases h : k' = k <;> simp [mapGet, h]
  | cons p rest ih =>
    obtain ⟨a, b⟩ := p
    intro k' h
    have hak : ¬ a = k := by
      intro hh
      simp [mapHas, List.any_cons, hh] at h
    have hrest : mapHas rest k = false := by
      simp only [mapHas, List.any_cons, Bool.or_eq_false_iff] at h
      simpa [mapHas] using h.2
    show mapGet ((a, b) :: (rest ++ [(k, v)])) k' = _
    rw [mapGet_cons]
    by_cases ha : k' = a
    · have hk : ¬ k' = k := fun hh => hak (ha.symm.trans hh)
      rw [if_pos ha, if_neg hk, mapGet_cons, if_pos ha]
    · rw [if_neg ha, ih k' hrest]
      by_cases hk : k' = k
      · rw [if_pos hk, if_pos hk]
      · rw [if_neg hk, if_neg hk, mapGet_cons, if_neg ha]

/-- The fundamental `Map.set` lookup equation (valid for every association
list, duplicate keys included). -/
theorem mapGet_mapSet {β : Type} (m : List (String × β)) (k : String) (v : β)
    (k' : String) :
    mapGet (mapSet m k v) k' = if k' = k then some v else mapGet m k' := by
  unfold mapSet
  by_cases h : mapHas m k = true
  · rw [if_pos h, mapGet_replaceMap k v m k', h]
    simp
  · have h' : mapHas m k = false := by
      revert h
      cases mapHas m k <;> simp
    rw [if_neg (by simp [h'])]
    exact mapGet_append_single k v m k' h'

/-- Lookup distributes over append. -/
theorem mapGet_append {β : Type} :
    ∀ (xs ys : List (String × β)) (k : String),
      mapGet (xs ++ ys) k = (mapGet xs k).or (mapGet ys k)
  | [], ys, k => by simp [mapGet]
  | (a, b) :: rest, ys, k => by
    show mapGet ((a, b) :: (rest ++ ys)) k = _
    rw [mapGet_cons, mapGet_cons]
    by_cases h : k = a
    · simp [h]
    · rw [if_neg h, if_neg h, mapGet_append rest ys k]

/-- Lookup after folding `Map.set` insertions: the latest insertion of the
key wins, falling back to the starting map. -/
theorem mapGet_foldl_mapSet {β : Type} :
    ∀ (l : List (String × β)) (m : List (String × β)) (k : String),
      mapGet (l.foldl (fun m p => mapSet m p.1 p.2) m) k =
        (mapGet l.reverse k).or (mapGet m k)
  | [], m, k => by simp [mapGet]
  | p :: rest, m, k => by
    obtain ⟨a, b⟩ := p
    show mapGet (rest.foldl (fun m p => mapSet m p.1 p.2) (mapSet m a b)) k = _
    rw [mapGet_foldl_mapSet rest (mapSet m a b) k, mapGet_mapSet,
      List.reverse_cons, mapGet_append, Option.or_assoc]
    congr 1
    by_cases h : k = a
    · simp [mapGet, h]
    · simp [mapGet, h]

/-- The innermost keyword fold of `loadIndex` is the fold of `Map.set` over
the document's filtered normalized keyword stream. -/
theorem kwFoldl_eq (doc : Doc) (cname clink : String) :
    ∀ (kws : List String) (m : List (String × KWEntry)),
      kws.foldl (fun m kw =>
        let normalizedKeyword := AskAndrew.normalizeKeyword kw
        if normalizedKeyword ≠ "" then
          mapSet m normalizedKeyword ⟨doc, cname, clink⟩
        else m) m =
      ((kws.map (fun kw =>
        (AskAndrew.normalizeKeyword kw,
         (⟨doc, cname, clink⟩ : KWEntry)))).filter
          (fun p => decide (p.1 ≠ ""))).foldl
        (fun m p => mapSet m p.1 p.2) m
  | [], m => rfl
  | kw :: rest, m => by
    by_cases h : AskAndrew.normalizeKeyword kw ≠ ""
    · have hstep : (kw :: rest).foldl (fun m kw =>
          let normalizedKeyword := AskAndrew.normalizeKeyword kw
          if normalizedKeyword ≠ "" then
            mapSet m normalizedKeyword ⟨doc, cname, clink⟩
          else m) m =
          rest.foldl (fun m kw =>
            let normalizedKeyword := AskAndrew.normalizeKeyword kw
            if normalizedKeyword ≠ "" then
              mapSet m normalizedKeyword ⟨doc, cname, clink⟩
            else m) (mapSet m (AskAndrew.normalizeKeyword kw)
              ⟨doc, cname, clink⟩) := by
        show List.foldl _ (if AskAndrew.normalizeKeyword kw ≠ "" then _ else m)
          rest = _
        rw [if_pos h]
      rw [hstep, kwFoldl_eq doc cname clink rest]
      rw [List.map_cons, List.filter_cons_of_pos (by simpa using h)]
      rfl
    · have hstep : (kw :: rest).foldl (fun m kw =>
          let normalizedKeyword := AskAndrew.normalizeKeyword kw
          if normalizedKeyword ≠ "" then
            mapSet m normalizedKeyword ⟨doc, cname, clink⟩
          else m) m =
          rest.foldl (fun m kw =>
            let normalizedKeyword := AskAndrew.normalizeKeyword kw
            if normalizedKeyword ≠ "" then
              mapSet m normalizedKeyword ⟨doc, cname, clink⟩
            else m) m := by
        show List.foldl _ (if AskAndrew.normalizeKeyword kw ≠ "" then _ else m)
          rest = _
        rw [if_neg h]
      rw [hstep, kwFoldl_eq doc cname clink rest]
      rw [List.map_cons, List.filter_cons_of_neg (by simpa using h)]

/-- The per-category document fold of `loadIndex` is the fold of `Map.set`
over the category's occurrence stream. -/
theorem docsFoldl_eq (cname clink : String) :
    ∀ (docs : List Doc) (m : List (String × KWEntry)),
      docs.foldl (fun m doc =>
        doc.keywords.foldl (fun m kw =>
          let normalizedKeyword := AskAndrew.normalizeKeyword kw
          if normalizedKeyword ≠ "" then
            mapSet m normalizedKeyword ⟨doc, cname, clink⟩
          else m) m) m =
      (docs.flatMap (fun doc =>
        (doc.keywords.map (fun kw =>
          (AskAndrew.normalizeKeyword kw,
           (⟨doc, cname, clink⟩ : KWEntry)))).filter
          (fun p => decide (p.1 ≠ "")))).foldl
        (fun m p => mapSet m p.1 p.2) m
  | [], m => rfl
  | doc :: rest, m => by
    show rest.foldl _ (doc.keywords.foldl _ m) = _
    rw [List.flatMap_cons, List.foldl_append, docsFoldl_eq cname clink rest,
      kwFoldl_eq doc cname clink]

/-- The keyword map of `loadIndex` is the left fold of `Map.set` over the
flattened occurrence stream. -/
theorem buildKeywordMap_eq_foldl (indexData : List Category) :
    AskAndrew.buildKeywordMap indexData =
      (keywordOccurrences indexData).foldl (fun m p => mapSet m p.1 p.2) [] := by
  suffices h : ∀ (idx : List Category) (m : List (String × KWEntry)),
      idx.foldl (fun m cat =>
        cat.documents.foldl (fun m doc =>
          doc.keywords.foldl (fun m kw =>
            let normalizedKeyword := AskAndrew.normalizeKeyword kw
            if normalizedKeyword ≠ "" then
              mapSet m normalizedKeyword ⟨doc, cat.category, cat.link⟩
            else m) m) m) m =
      (keywordOccurrences idx).foldl (fun m p => mapSet m p.1 p.2) m by
    exact h indexData []
  intro idx
  induction idx with
  | nil => intro m; rfl
  | cons cat rest ih =>
    intro m
    show rest.foldl _ (cat.documents.foldl _ m) = _
    rw [keywordOccurrences, List.flatMap_cons, List.foldl_append, ih,
      docsFoldl_eq cat.category cat.link]
    rfl

/-- `Map.set` keeps the key list, or appends the fresh key. -/
theorem keys_mapSet {β : Type} (m : List (String × β)) (k : String) (v : β) :
    (mapSet m k v).map Prod.fst =
      if mapHas m k then m.map Prod.fst else m.map Prod.fst ++ [k] := by
  unfold mapSet
  by_cases h : mapHas m k = true
  · rw [if_pos h, if_pos h, List.map_map]
    apply List.map_congr_left
    intro p _
    show (if p.1 = k then (k, v) else p).1 = p.1
    by_cases hp : p.1 = k
    · rw [if_pos hp]
      exact hp.symm
    · rw [if_neg hp]
  · rw [if_neg h, if_neg h, List.map_append]
    rfl

/-- `Map.has` decides membership in the key list. -/
theorem mapHas_iff {β : Type} (m : List (String × β)) (k : String) :
    mapHas m k = true ↔ k ∈ m.map Prod.fst := by
  unfold mapHas
  rw [List.any_eq_true]
  constructor
  · rintro ⟨p, hp, he⟩
    rw [List.mem_map]
    exact ⟨p, hp, by simpa using he⟩
  · intro hk
    rw [List.mem_map] at hk
    obtain ⟨p, hp, he⟩ := hk
    exact ⟨p, hp, by simpa using he⟩

/-- Folding `Map.set` insertions keeps the key list duplicate-free. -/
theorem keys_nodup_foldl_mapSet {β : Type} :
    ∀ (l : List (String × β)) (m : List (String × β)),
      (m.map Prod.fst).Nodup →
      (((l.foldl (fun m p => mapSet m p.1 p.2) m).map Prod.fst)).Nodup
  | [], _, hm => hm
  | p :: rest, m, hm => by
    show (((rest.foldl (fun m p => mapSet m p.1 p.2)
      (mapSet m p.1 p.2)).map Prod.fst)).Nodup
    apply keys_nodup_foldl_mapSet rest
    rw [keys_mapSet]
    by_cases h : mapHas m p.1 = true
    · rw [if_pos h]
      exact hm
    · rw [if_neg h]
      rw [List.nodup_append]
      refine ⟨hm, List.nodup_singleton _, ?_⟩
      intro x hx hx1
      rw [List.mem_singleton] at hx1
      subst hx1
      exact h ((mapHas_iff m p.1).mpr hx)

/-- `Map.set` grows the map by at most one binding. -/
theorem length_mapSet {β : Type} (m : List (String × β)) (k : String) (v : β) :
    (mapSet m k v).length ≤ m.length + 1 := by
  unfold mapSet
  by_cases h : mapHas m k = true
  · rw [if_pos h, List.length_map]
    omega
  · rw [if_neg h, List.length_append]
    simp

/-- Folding insertions grows the map by at most the number of insertions. -/
theorem length_foldl_mapSet {β : Type} :
    ∀ (l : List (String × β)) (m : List (String × β)),
      (l.foldl (fun m p => mapSet m p.1 p.2) m).length ≤ m.length + l.length
  | [], m => le_refl _
  | p :: rest, m => by
    show (rest.foldl (fun m p => mapSet m p.1 p.2)
      (mapSet m p.1 p.2)).length ≤ _
    calc (rest.foldl (fun m p => mapSet m p.1 p.2)
        (mapSet m p.1 p.2)).length
        ≤ (mapSet m p.1 p.2).length + rest.length :=
          length_foldl_mapSet rest (mapSet m p.1 p.2)
      _ ≤ (m.length + 1) + rest.length := by
          have := length_mapSet m p.1 p.2
          omega
      _ = m.length + (p :: rest).length := by
          rw [List.length_cons]
          omega

/-- The occurrence stream is no longer than the raw keyword count. -/
theorem keywordOccurrences_length_le (indexData : List Category) :
    (keywordOccurrences indexData).length ≤
      totalKeywordOccurrences indexData := by
  unfold keywordOccurrences totalKeywordOccurrences
  rw [List.length_flatMap]
  apply List.sum_le_sum
  intro cat _
  show (cat.documents.flatMap _).length ≤ _
  rw [List.length_flatMap]
  apply List.sum_le_sum
  intro doc _
  calc ((doc.keywords.map _).filter (fun p => decide (p.1 ≠ ""))).length
      ≤ (doc.keywords.map (fun kw =>
          (AskAndrew.normalizeKeyword kw,
           (⟨doc, cat.category, cat.link⟩ : KWEntry)))).length :=
        List.length_filter_le _ _
    _ = doc.keywords.length := List.length_map _ _

/-- A lookup succeeds exactly on the key list. -/
theorem mapGet_ne_none_iff {β : Type} :
    ∀ (m : List (String × β)) (k : String),
      mapGet m k ≠ none ↔ k ∈ m.map Prod.fst
  | [], k => by simp [mapGet]
  | (a, b) :: rest, k => by
    rw [mapGet_cons]
    by_cases h : k = a
    · simp [h]
    · simp only [if_neg h, List.map_cons, List.mem_cons]
      rw [mapGet_ne_none_iff rest k]
      constructor
      · exact fun hk => Or.inr hk
      · rintro (hk | hk)
        · exact absurd hk h
        · exact hk

/-- C4: the keyword index builder binds each non-empty normalized keyword
occurring in any document; the key list is duplicate-free (exactly one entry
per distinct non-empty normalized keyword); a key is present exactly when it
occurs as a non-empty normalized keyword of some document; every lookup
returns the entry of the latest occurrence in load order (later documents
silently win on collision, no error); and the map size is at most the total
number of keyword occurrences. -/
theorem buildKeywordMap_c4 (indexData : List Category) :
    (((AskAndrew.buildKeywordMap indexData).map Prod.fst)).Nodup ∧
    (∀ k, mapGet (AskAndrew.buildKeywordMap indexData) k =
      mapGet (keywordOccurrences indexData).reverse k) ∧
    (∀ k, mapGet (AskAndrew.buildKeywordMap indexData) k ≠ none ↔
      k ∈ (keywordOccurrences indexData).map Prod.fst) ∧
    (AskAndrew.buildKeywordMap indexData).length ≤
      totalKeywordOccurrences indexData := by
  refine ⟨?_, ?_, ?_, ?_⟩
  · rw [buildKeywordMap_eq_foldl]
    exact keys_nodup_foldl_mapSet _ [] (by simp)
  · intro k
    rw [buildKeywordMap_eq_foldl, mapGet_foldl_mapSet]
    show (mapGet (keywordOccurrences indexData).reverse k).or none = _
    cases mapGet (keywordOccurrences indexData).reverse k <;> rfl
  · intro k
    rw [buildKeywordMap_eq_foldl, mapGet_foldl_mapSet]
    have h1 : (mapGet ([] : List (String × KWEntry)) k) = none := rfl
    rw [h1]
    have h2 : ∀ o : Option KWEntry, o.or none = o := by
      intro o
      cases o <;> rfl
    rw [h2]
    rw [mapGet_ne_none_iff]
    rw [List.map_reverse, List.mem_reverse]
  · calc (AskAndrew.buildKeywordMap indexData).length
        ≤ ([] : List (String × KWEntry)).length +
          (keywordOccurrences indexData).length := by
          rw [buildKeywordMap_eq_foldl]
          exact length_foldl_mapSet _ []
    _ = (keywordOccurrences indexData).length := by simp
    _ ≤ totalKeywordOccurrences indexData :=
        keywordOccurrences_length_le indexData

/-! ### C7: document bucket integrity -/

/-- The rebuild fold only appends: running it from any accumulator prefixes
the accumulator. -/
theorem rebuildMatches_go (filtered : List String) :
    ∀ (buckets : List (String × QueryMatch)) (acc : List QueryMatch),
      buckets.foldl
        (fun acc p =>
          let valid := p.2.matchedKeywords.filter
            (fun kw => filtered.contains kw)
          if valid.length > 0 then
            acc ++ [{ p.2 with matchedKeywords := valid }]
          else acc) acc =
      acc ++ AskAndrew.rebuildMatches buckets filtered
  | [], acc => by
    simp [AskAndrew.rebuildMatches]
  | p :: rest, acc => by
    show rest.foldl _
      (if (p.2.matchedKeywords.filter (fun kw => filtered.contains kw)).length
          > 0
       then acc ++ [{ p.2 with matchedKeywords :=
         p.2.matchedKeywords.filter (fun kw => filtered.contains kw) }]
       else acc) = acc ++ AskAndrew.rebuildMatches (p :: rest) filtered
    have hrhs : AskAndrew.rebuildMatches (p :: rest) filtered =
        rest.foldl
          (fun acc p =>
            let valid := p.2.matchedKeywords.filter
              (fun kw => filtered.contains kw)
            if valid.length > 0 then
              acc ++ [{ p.2 with matchedKeywords := valid }]
            else acc)
          (if (p.2.matchedKeywords.filter
              (fun kw => filtered.contains kw)).length > 0
           then [] ++ [{ p.2 with matchedKeywords :=
             p.2.matchedKeywords.filter (fun kw => filtered.contains kw) }]
           else []) := rfl
    by_cases h : (p.2.matchedKeywords.filter
        (fun kw => filtered.contains kw)).length > 0
    · rw [if_pos h, hrhs, if_pos h, rebuildMatches_go filtered rest,
        rebuildMatches_go filtered rest]
      simp
    · rw [if_neg h, hrhs, if_neg h, rebuildMatches_go filtered rest,
        rebuildMatches_go filtered rest]
      simp

/-- Unfolding the rebuild on a leading bucket. -/
theorem rebuildMatches_cons (filtered : List String)
    (p : String × QueryMatch) (rest : List (String × QueryMatch)) :
    AskAndrew.rebuildMatches (p :: rest) filtered =
      (if (p.2.matchedKeywords.filter
          (fun kw => filtered.contains kw)).length > 0
       then [{ p.2 with matchedKeywords :=
         p.2.matchedKeywords.filter (fun kw => filtered.contains kw) }]
       else []) ++ AskAndrew.rebuildMatches rest filtered := by
  have h0 : AskAndrew.rebuildMatches (p :: rest) filtered =
      rest.foldl
        (fun acc p =>
          let valid := p.2.matchedKeywords.filter
            (fun kw => filtered.contains kw)
          if valid.length > 0 then
            acc ++ [{ p.2 with matchedKeywords := valid }]
          else acc)
        (if (p.2.matchedKeywords.filter
            (fun kw => filtered.contains kw)).length > 0
         then ([] : List QueryMatch) ++
           [({ p.2 with matchedKeywords :=
             p.2.matchedKeywords.filter (fun kw => filtered.contains kw) } :
             QueryMatch)]
         else ([] : List QueryMatch)) := rfl
  rw [h0]
  by_cases h : (p.2.matchedKeywords.filter
      (fun kw => filtered.contains kw)).length > 0
  · rw [if_pos h, if_pos h, rebuildMatches_go filtered rest]
    simp
  · rw [if_neg h, if_neg h, rebuildMatches_go filtered rest]

/-- Unfolding `performSearch` into its three phases. -/
theorem performSearch_eq (km : List (String × KWEntry)) (q : String) :
    AskAndrew.performSearch km q =
      ⟨AskAndrew.rebuildMatches
        (AskAndrew.matchNGrams km (AskAndrew.extractNGrams q)).buckets
        (AskAndrew.filterSubsets
          (AskAndrew.matchNGrams km (AskAndrew.extractNGrams q)).matchedKeywords),
       AskAndrew.filterSubsets
        (AskAndrew.matchNGrams km (AskAndrew.extractNGrams q)).matchedKeywords⟩ := by
  unfold AskAndrew.performSearch
  rfl

/-- Every rebuilt match comes from a bucket with a surviving keyword and is
that bucket restricted to the kept keywords. -/
theorem mem_rebuildMatches_imp (filtered : List String) :
    ∀ (buckets : List (String × QueryMatch)) (m : QueryMatch),
      m ∈ AskAndrew.rebuildMatches buckets filtered →
      ∃ p, p ∈ buckets ∧
        (p.2.matchedKeywords.filter (fun kw => filtered.contains kw)).length
          > 0 ∧
        m = { p.2 with matchedKeywords :=
          p.2.matchedKeywords.filter (fun kw => filtered.contains kw) }
  | [], m, hm => by
    simp [AskAndrew.rebuildMatches] at hm
  | p :: rest, m, hm => by
    rw [rebuildMatches_cons, List.mem_append] at hm
    rcases hm with hm | hm
    · by_cases h : (p.2.matchedKeywords.filter
          (fun kw => filtered.contains kw)).length > 0
      · rw [if_pos h, List.mem_singleton] at hm
        exact ⟨p, List.mem_cons_self p rest, h, hm⟩
      · rw [if_neg h] at hm
        exact absurd hm (List.not_mem_nil m)
    · obtain ⟨p', hp', h1, h2⟩ := mem_rebuildMatches_imp filtered rest m hm
      exact ⟨p', List.mem_cons_of_mem p hp', h1, h2⟩

/-- Every bucket with a surviving keyword produces its rebuilt match. -/
theorem rebuildMatches_complete (filtered : List String) :
    ∀ (buckets : List (String × QueryMatch)) (p : String × QueryMatch),
      p ∈ buckets →
      (p.2.matchedKeywords.filter (fun kw => filtered.contains kw)).length
        > 0 →
      ({ p.2 with matchedKeywords :=
        p.2.matchedKeywords.filter (fun kw => filtered.contains kw) } :
        QueryMatch) ∈ AskAndrew.rebuildMatches buckets filtered
  | [], p, hp, _ => absurd hp (List.not_mem_nil p)
  | q :: rest, p, hp, hlen => by
    rw [rebuildMatches_cons, List.mem_append]
    rcases List.mem_cons.mp hp with rfl | hp'
    · left
      rw [if_pos hlen, List.mem_singleton]
    · right
      exact rebuildMatches_complete filtered rest p hp' hlen

/-- The matches component of `performSearch`. -/
theorem performSearch_matches (km : List (String × KWEntry)) (q : String) :
    (AskAndrew.performSearch km q).matches = AskAndrew.rebuildMatches
      (AskAndrew.matchNGrams km (AskAndrew.extractNGrams q)).buckets
      (AskAndrew.filterSubsets
        (AskAndrew.matchNGrams km (AskAndrew.extractNGrams q)).matchedKeywords) := by
  rw [performSearch_eq]

/-- The kept-keyword component of `performSearch`. -/
theorem performSearch_matchedKeywords (km : List (String × KWEntry))
    (q : String) :
    (AskAndrew.performSearch km q).matchedKeywords =
      AskAndrew.filterSubsets
        (AskAndrew.matchNGrams km (AskAndrew.extractNGrams q)).matchedKeywords := by
  rw [performSearch_eq]

/-- C7: every QueryMatch in the final matches list has a non-empty
`matchedKeywords` list that is a subset of the kept (subset-filtered)
keyword set; a bucket whose keywords were all removed by filtering
contributes no QueryMatch. -/
theorem bucketIntegrity_c7 (km : List (String × KWEntry)) (q : String)
    (m : QueryMatch)
    (hm : m ∈ (AskAndrew.performSearch km q).matches) :
    m.matchedKeywords ≠ [] ∧
    ∀ kw ∈ m.matchedKeywords,
      kw ∈ (AskAndrew.performSearch km q).matchedKeywords := by
  rw [performSearch_matches] at hm
  obtain ⟨p, _, hlen, hmeq⟩ := mem_rebuildMatches_imp _ _ m hm
  rw [performSearch_matchedKeywords]
  constructor
  · intro hnil
    have : m.matchedKeywords.length > 0 := by
      rw [hmeq]
      exact hlen
    rw [hnil] at this
    simp at this
  · intro kw hkw
    rw [hmeq] at hkw
    have hkw' := List.mem_filter.mp hkw
    have hc := hkw'.2
    simpa using hc

/-- C7, witness: the neural-network question on the section-8 index yields a
match whose keywords are non-empty and all kept. -/
theorem bucketIntegrity_c7_witness :
    (⟨specDoc1, "AI Concepts", "https://example.com/ai",
      ["neural network"]⟩ : QueryMatch).matchedKeywords ≠ [] ∧
    ∀ kw ∈ (⟨specDoc1, "AI Concepts", "https://example.com/ai",
      ["neural network"]⟩ : QueryMatch).matchedKeywords,
      kw ∈ (AskAndrew.performSearch (AskAndrew.buildKeywordMap specIndex8)
        "What is a neural network?").matchedKeywords :=
  bucketIntegrity_c7 (AskAndrew.buildKeywordMap specIndex8)
    "What is a neural network?"
    ⟨specDoc1, "AI Concepts", "https://example.com/ai", ["neural network"]⟩
    (by decide)

/-! ### C2: the subset filter -/

/-- Inserting keeps the multiset. -/
theorem insertByWordCount_perm (x : String) :
    ∀ l : List String, (AskAndrew.insertByWordCount x l).Perm (x :: l)
  | [] => List.Perm.refl _
  | y :: ys => by
    unfold AskAndrew.insertByWordCount
    by_cases h : AskAndrew.wordCount y ≤ AskAndrew.wordCount x
    · rw [if_pos h]
    · rw [if_neg h]
      exact ((insertByWordCount_perm x ys).cons y).trans
        (List.Perm.swap x y ys)

/-- The sort is a permutation. -/
theorem sortByWordCountDesc_perm :
    ∀ l : List String, (AskAndrew.sortByWordCountDesc l).Perm l
  | [] => List.Perm.refl _
  | x :: xs =>
    (insertByWordCount_perm x (AskAndrew.sortByWordCountDesc xs)).trans
      ((sortByWordCountDesc_perm xs).cons x)

/-- Inserting preserves descending word-count order. -/
theorem insertByWordCount_pairwise (x : String) :
    ∀ l : List String,
      l.Pairwise (fun a b => AskAndrew.wordCount b ≤ AskAndrew.wordCount a) →
      (AskAndrew.insertByWordCount x l).Pairwise
        (fun a b => AskAndrew.wordCount b ≤ AskAndrew.wordCount a)
  | [], _ => by
    unfold AskAndrew.insertByWordCount
    exact List.pairwise_singleton _ x
  | y :: ys, h => by
    unfold AskAndrew.insertByWordCount
    rcases List.pairwise_cons.mp h with ⟨hy, hys⟩
    by_cases hxy : AskAndrew.wordCount y ≤ AskAndrew.wordCount x
    · rw [if_pos hxy]
      refine List.pairwise_cons.mpr ⟨?_, h⟩
      intro b hb
      rcases List.mem_cons.mp hb with rfl | hb
      · exact hxy
      · exact le_trans (hy b hb) hxy
    · rw [if_neg hxy]
      refine List.pairwise_cons.mpr ⟨?_, insertByWordCount_pairwise x ys hys⟩
      intro b hb
      have hb' := (insertByWordCount_perm x ys).mem_iff.mp hb
      rcases List.mem_cons.mp hb' with rfl | hb'
      · omega
      · exact hy b hb'

/-- The sorted list is in descending word-count order. -/
theorem sortByWordCountDesc_pairwise :
    ∀ l : List String,
      (AskAndrew.sortByWordCountDesc l).Pairwise
        (fun a b => AskAndrew.wordCount b ≤ AskAndrew.wordCount a)
  | [] => List.Pairwise.nil
  | x :: xs =>
    insertByWordCount_pairwise x _ (sortByWordCountDesc_pairwise xs)

/-- Insertion does not change the subsequence of any fixed word count. -/
theorem insertByWordCount_filter (x : String) (n : Nat) :
    ∀ l : List String,
      (AskAndrew.insertByWordCount x l).filter
        (fun s => decide (AskAndrew.wordCount s = n)) =
      (x :: l).filter (fun s => decide (AskAndrew.wordCount s = n))
  | [] => rfl
  | y :: ys => by
    unfold AskAndrew.insertByWordCount
    by_cases hxy : AskAndrew.wordCount y ≤ AskAndrew.wordCount x
    · rw [if_pos hxy]
    · rw [if_neg hxy]
      by_cases hy : AskAndrew.wordCount y = n
      · have hx : ¬ AskAndrew.wordCount x = n := by omega
        simp [List.filter_cons, hy, hx, insertByWordCount_filter x n ys]
      · simp [List.filter_cons, hy, insertByWordCount_filter x n ys]

/-- Stability of the sort: for every word count, the keywords of that count
appear in their original order. -/
theorem sortByWordCountDesc_filter (n : Nat) :
    ∀ l : List String,
      (AskAndrew.sortByWordCountDesc l).filter
        (fun s => decide (AskAndrew.wordCount s = n)) =
      l.filter (fun s => decide (AskAndrew.wordCount s = n))
  | [] => rfl
  | x :: xs => by
    show (AskAndrew.insertByWordCount x
        (AskAndrew.sortByWordCountDesc xs)).filter _ = _
    rw [insertByWordCount_filter x n, List.filter_cons, List.filter_cons,
      sortByWordCountDesc_filter n xs]

/-- The filtering fold only appends to the kept list. -/
theorem foldl_keepStep_grows :
    ∀ (l kept : List String),
      ∃ t, l.foldl AskAndrew.keepStep kept = kept ++ t
  | [], kept => ⟨[], by simp⟩
  | x :: xs, kept => by
    show ∃ t, xs.foldl AskAndrew.keepStep (AskAndrew.keepStep kept x) = _
    obtain ⟨t, ht⟩ := foldl_keepStep_grows xs (AskAndrew.keepStep kept x)
    by_cases h : (kept.any
        (fun ex => !(decide (ex = x)) && strContains ex x)) = true
    · have hstep : AskAndrew.keepStep kept x = kept := by
        unfold AskAndrew.keepStep
        rw [if_pos h]
      rw [hstep] at ht
      exact ⟨t, by rw [hstep]; exact ht⟩
    · have hstep : AskAndrew.keepStep kept x = kept ++ [x] := by
        unfold AskAndrew.keepStep
        rw [if_neg h]
      rw [hstep] at ht
      exact ⟨[x] ++ t, by rw [hstep, ht, List.append_assoc]⟩

/-- Everything kept was already kept or processed. -/
theorem mem_foldl_keepStep :
    ∀ (l kept : List String) (x : String),
      x ∈ l.foldl AskAndrew.keepStep kept → x ∈ kept ∨ x ∈ l
  | [], _, _, h => Or.inl h
  | y :: ys, kept, x, h => by
    have h' := mem_foldl_keepStep ys (AskAndrew.keepStep kept y) x h
    rcases h' with h' | h'
    · unfold AskAndrew.keepStep at h'
      by_cases hy : (kept.any
          (fun ex => !(decide (ex = y)) && strContains ex y)) = true
      · rw [if_pos hy] at h'
        exact Or.inl h'
      · rw [if_neg hy] at h'
        rcases List.mem_append.mp h' with h'' | h''
        · exact Or.inl h''
        · exact Or.inr (by
            rw [List.mem_singleton] at h''
            exact h'' ▸ List.mem_cons_self y ys)
    · exact Or.inr (List.mem_cons_of_mem y h')

/-- A keyword that no different keyword of the stream or of the kept list
contains survives the filtering fold. -/
theorem keep_of_no_container :
    ∀ (l kept : List String) (kw : String), kw ∈ l →
      (∀ ex ∈ kept, ex ≠ kw → strContains ex kw = false) →
      (∀ ex ∈ l, ex ≠ kw → strContains ex kw = false) →
      kw ∈ l.foldl AskAndrew.keepStep kept
  | [], _, kw, hkw, _, _ => absurd hkw (List.not_mem_nil kw)
  | x :: xs, kept, kw, hkw, hkept, hl => by
    show kw ∈ xs.foldl AskAndrew.keepStep (AskAndrew.keepStep kept x)
    rcases List.mem_cons.mp hkw with heq | hkw'
    · subst heq
      have hany : (kept.any
          (fun ex => !(decide (ex = kw)) && strContains ex kw)) = false := by
        rw [List.any_eq_false]
        intro ex hex
        by_cases he : ex = kw
        · simp [he]
        · simp [he, hkept ex hex he]
      have hstep : AskAndrew.keepStep kept kw = kept ++ [kw] := by
        unfold AskAndrew.keepStep
        rw [if_neg (by simp [hany])]
      obtain ⟨t, ht⟩ := foldl_keepStep_grows xs (AskAndrew.keepStep kept kw)
      rw [ht, hstep]
      simp
    · apply keep_of_no_container xs (AskAndrew.keepStep kept x) kw hkw'
      · intro ex hex hne
        unfold AskAndrew.keepStep at hex
        by_cases hx : (kept.any
            (fun ex => !(decide (ex = x)) && strContains ex x)) = true
        · rw [if_pos hx] at hex
          exact hkept ex hex hne
        · rw [if_neg hx] at hex
          rcases List.mem_append.mp hex with h'' | h''
          · exact hkept ex h'' hne
          · rw [List.mem_singleton] at h''
            subst h''
            exact hl ex (List.mem_cons_self ex xs) hne
      · intro ex hex hne
        exact hl ex (List.mem_cons_of_mem x hex) hne

/-- Once a kept keyword contains `kw`, the fold never adds `kw`. -/
theorem not_mem_foldl_keepStep :
    ∀ (l kept : List String) (kw ex0 : String),
      ex0 ∈ kept → ex0 ≠ kw → strContains ex0 kw = true → kw ∉ kept →
      kw ∉ l.foldl AskAndrew.keepStep kept
  | [], _, _, _, _, _, _, hnk => hnk
  | x :: xs, kept, kw, ex0, hex, hne, hcont, hnk => by
    show kw ∉ xs.foldl AskAndrew.keepStep (AskAndrew.keepStep kept x)
    have hsub : kept ⊆ AskAndrew.keepStep kept x := by
      unfold AskAndrew.keepStep
      by_cases hx : (kept.any
          (fun ex => !(decide (ex = x)) && strContains ex x)) = true
      · rw [if_pos hx]
        exact List.Subset.refl kept
      · rw [if_neg hx]
        exact List.subset_append_left kept [x]
    apply not_mem_foldl_keepStep xs (AskAndrew.keepStep kept x) kw ex0
      (hsub hex) hne hcont
    by_cases hxkw : x = kw
    · subst hxkw
      have hany : (kept.any
          (fun ex => !(decide (ex = x)) && strContains ex x)) = true := by
        rw [List.any_eq_true]
        exact ⟨ex0, hex, by simp [hne, hcont]⟩
      rw [show AskAndrew.keepStep kept x = kept by
        unfold AskAndrew.keepStep; rw [if_pos hany]]
      exact hnk
    · unfold AskAndrew.keepStep
      by_cases hx : (kept.any
          (fun ex => !(decide (ex = x)) && strContains ex x)) = true
      · rw [if_pos hx]
        exact hnk
      · rw [if_neg hx]
        intro hmem
        rcases List.mem_append.mp hmem with h'' | h''
        · exact hnk h''
        · rw [List.mem_singleton] at h''
          exact hxkw h''.symm

/-- A matched keyword contained in no other matched keyword is kept. -/
theorem filterSubsets_keep (l : List String) (kw : String) (hkw : kw ∈ l)
    (hno : ∀ ex ∈ l, ex ≠ kw → strContains ex kw = false) :
    kw ∈ AskAndrew.filterSubsets l := by
  unfold AskAndrew.filterSubsets
  apply keep_of_no_container _ [] kw
  · exact (sortByWordCountDesc_perm l).mem_iff.mpr hkw
  · intro ex hex
    exact absurd hex (List.not_mem_nil ex)
  · intro ex hex hne
    exact hno ex ((sortByWordCountDesc_perm l).mem_iff.mp hex) hne

/-- A matched keyword that is a substring of a kept, strictly longer matched
keyword is dropped. -/
theorem filterSubsets_drop (l : List String) (hnd : l.Nodup) (kw ex0 : String)
    (hkw : kw ∈ l) (hex : ex0 ∈ l) (hne : ex0 ≠ kw)
    (hwc : AskAndrew.wordCount kw < AskAndrew.wordCount ex0)
    (hcont : strContains ex0 kw = true)
    (hnoc : ∀ ex ∈ l, ex ≠ ex0 → strContains ex ex0 = false) :
    kw ∉ AskAndrew.filterSubsets l := by
  have hperm := sortByWordCountDesc_perm l
  have hs_nd : (AskAndrew.sortByWordCountDesc l).Nodup :=
    hperm.nodup_iff.mpr hnd
  have hkw_s : kw ∈ AskAndrew.sortByWordCountDesc l := hperm.mem_iff.mpr hkw
  obtain ⟨u, v, huv⟩ := List.append_of_mem hkw_s
  have hex_u : ex0 ∈ u := by
    have hex_s : ex0 ∈ AskAndrew.sortByWordCountDesc l :=
      hperm.mem_iff.mpr hex
    rw [huv] at hex_s
    rcases List.mem_append.mp hex_s with h | h
    · exact h
    · rcases List.mem_cons.mp h with h1 | h1
      · exact absurd h1 hne
      · exfalso
        have hpw := sortByWordCountDesc_pairwise l
        rw [huv] at hpw
        have h2 := (List.pairwise_append.mp hpw).2.1
        have h3 := (List.pairwise_cons.mp h2).1 ex0 h1
        omega
  have hkeep : ex0 ∈ u.foldl AskAndrew.keepStep [] := by
    apply keep_of_no_container u [] ex0 hex_u
    · intro ex hx
      exact absurd hx (List.not_mem_nil ex)
    · intro ex hx hne2
      apply hnoc ex ?memex hne2
      case memex =>
        apply hperm.mem_iff.mp
        rw [huv]
        exact List.mem_append_left _ hx
  unfold AskAndrew.filterSubsets
  rw [huv, List.foldl_append]
  show kw ∉ (kw :: v).foldl AskAndrew.keepStep (u.foldl AskAndrew.keepStep [])
  have hknotu : kw ∉ u.foldl AskAndrew.keepStep [] := by
    intro hmem
    rcases mem_foldl_keepStep u [] kw hmem with h | h
    · exact absurd h (List.not_mem_nil kw)
    · rw [huv] at hs_nd
      exact (List.nodup_append.mp hs_nd).2.2 h (List.mem_cons_self kw v)
  have hstep : AskAndrew.keepStep (u.foldl AskAndrew.keepStep []) kw =
      u.foldl AskAndrew.keepStep [] := by
    unfold AskAndrew.keepStep
    rw [if_pos]
    rw [List.any_eq_true]
    exact ⟨ex0, hkeep, by simp [hne, hcont]⟩
  show kw ∉ v.foldl AskAndrew.keepStep
    (AskAndrew.keepStep (u.foldl AskAndrew.keepStep []) kw)
  rw [hstep]
  exact not_mem_foldl_keepStep v _ kw ex0 hkeep hne hcont hknotu

/-- C2, counterexample: on `llmIndex`, the question
`large language models and the large language model idea` triggers the index
keywords `large language model` and `language model` (both exist in the
keyword map and both appear in the pre-filter matched set), yet the kept
keyword set does not contain `large language model` — it was dropped as a
substring of the kept keyword `large language models`, contradicting the
claim as stated. -/
theorem subsetFilter_c2_counterexample :
    (mapGet (AskAndrew.buildKeywordMap llmIndex)
      "large language model").isSome = true ∧
    (mapGet (AskAndrew.buildKeywordMap llmIndex)
      "language model").isSome = true ∧
    "large language model" ∈
      (AskAndrew.matchNGrams (AskAndrew.buildKeywordMap llmIndex)
        (AskAndrew.extractNGrams
          "large language models and the large language model idea")).matchedKeywords ∧
    "language model" ∈
      (AskAndrew.matchNGrams (AskAndrew.buildKeywordMap llmIndex)
        (AskAndrew.extractNGrams
          "large language models and the large language model idea")).matchedKeywords ∧
    "large language model" ∉
      (AskAndrew.performSearch (AskAndrew.buildKeywordMap llmIndex)
        "large language models and the large language model idea").matchedKeywords := by
  refine ⟨by decide, by decide, by decide, by decide, by decide⟩

/-- C2, amended: the filter processes the distinct matched keywords in
descending word count with ties in original collection order (the sorted
list is a permutation, pairwise sorted, and stable on every word count),
keeping a keyword unless an already-kept different keyword contains it as a
plain substring; in particular, when `large language model` and
`language model` are both triggered and no other triggered keyword contains
`large language model` as a substring, the kept set contains
`large language model` and excludes `language model` (and excludes
`language` if it was also triggered). -/
theorem subsetFilter_c2 (l : List String) (hnd : l.Nodup) :
    ((AskAndrew.sortByWordCountDesc l).Perm l ∧
     (AskAndrew.sortByWordCountDesc l).Pairwise
       (fun a b => AskAndrew.wordCount b ≤ AskAndrew.wordCount a) ∧
     (∀ n : Nat, (AskAndrew.sortByWordCountDesc l).filter
         (fun s => decide (AskAndrew.wordCount s = n)) =
       l.filter (fun s => decide (AskAndrew.wordCount s = n)))) ∧
    ("large language model" ∈ l → "language model" ∈ l →
     (∀ ex ∈ l, ex ≠ "large language model" →
       strContains ex "large language model" = false) →
     ("large language model" ∈ AskAndrew.filterSubsets l ∧
      "language model" ∉ AskAndrew.filterSubsets l ∧
      ("language" ∈ l → "language" ∉ AskAndrew.filterSubsets l))) := by
  refine ⟨⟨sortByWordCountDesc_perm l, sortByWordCountDesc_pairwise l,
    fun n => sortByWordCountDesc_filter n l⟩, ?_⟩
  intro hllm hlm hno
  refine ⟨filterSubsets_keep l _ hllm hno, ?_, ?_⟩
  · exact filterSubsets_drop l hnd "language model" "large language model"
      hlm hllm (by decide) (by decide) (by decide) hno
  · intro hlang
    exact filterSubsets_drop l hnd "language" "large language model"
      hlang hllm (by decide) (by decide) (by decide) hno

/-- C2, witness: the three-keyword matched set. -/
theorem subsetFilter_c2_witness :
    ((AskAndrew.sortByWordCountDesc
        ["large language model", "language model", "language"]).Perm
      ["large language model", "language model", "language"] ∧
     (AskAndrew.sortByWordCountDesc
        ["large language model", "language model", "language"]).Pairwise
       (fun a b => AskAndrew.wordCount b ≤ AskAndrew.wordCount a) ∧
     (∀ n : Nat, (AskAndrew.sortByWordCountDesc
          ["large language model", "language model", "language"]).filter
         (fun s => decide (AskAndrew.wordCount s = n)) =
       ["large language model", "language model", "language"].filter
         (fun s => decide (AskAndrew.wordCount s = n)))) ∧
    ("large language model" ∈ AskAndrew.filterSubsets
      ["large language model", "language model", "language"] ∧
     "language model" ∉ AskAndrew.filterSubsets
      ["large language model", "language model", "language"] ∧
     "language" ∉ AskAndrew.filterSubsets
      ["large language model", "language model", "language"]) := by
  have h := subsetFilter_c2
    ["large language model", "language model", "language"] (by decide)
  refine ⟨h.1, ?_⟩
  have h2 := h.2 (by decide) (by decide) (by decide)
  exact ⟨h2.1, h2.2.1, h2.2.2 (by decide)⟩

/-! ### C8: deduplicated categories and links -/

/-- First-occurrence deduplication, written recursively: keep the head and
dedup the tail with the head removed (independent spec-side formulation of
`[...new Set(a)]`). -/
def firstDedupRec : List String → List String
  | [] => []
  | x :: xs => x :: firstDedupRec (xs.filter (fun y => decide (y ≠ x)))
termination_by l => l.length
decreasing_by
  simp only [List.length_cons]
  exact Nat.lt_succ_of_le (List.length_filter_le _ _)

/-- Equation of `firstDedupRec` on the empty list. -/
theorem firstDedupRec_nil : firstDedupRec [] = [] :=
  firstDedupRec.eq_1

/-- Equation of `firstDedupRec` on a cons cell. -/
theorem firstDedupRec_cons (x : String) (xs : List String) :
    firstDedupRec (x :: xs) =
      x :: firstDedupRec (xs.filter (fun y => decide (y ≠ x))) :=
  firstDedupRec.eq_2 x xs

/-- The `Set`-fold from any accumulator appends the dedup of the unseen
elements. -/
theorem foldl_setAdd_eq :
    ∀ (l acc : List String),
      l.foldl setAdd acc =
        acc ++ firstDedupRec (l.filter (fun y => decide (y ∉ acc)))
  | [], acc => by simp [firstDedupRec_nil]
  | x :: xs, acc => by
    show xs.foldl setAdd (setAdd acc x) = _
    by_cases hx : x ∈ acc
    · have h1 : setAdd acc x = acc := by
        unfold setAdd
        rw [if_pos hx]
      have h2 : (x :: xs).filter (fun y => decide (y ∉ acc)) =
          xs.filter (fun y => decide (y ∉ acc)) := by
        rw [List.filter_cons]
        simp [hx]
      rw [h1, h2, foldl_setAdd_eq xs acc]
    · have h1 : setAdd acc x = acc ++ [x] := by
        unfold setAdd
        rw [if_neg hx]
      have h2 : (x :: xs).filter (fun y => decide (y ∉ acc)) =
          x :: xs.filter (fun y => decide (y ∉ acc)) := by
        rw [List.filter_cons]
        simp [hx]
      have hAB : xs.filter (fun y => decide (y ∉ acc ++ [x])) =
          (xs.filter (fun y => decide (y ∉ acc))).filter
            (fun y => decide (y ≠ x)) := by
        rw [List.filter_filter]
        apply List.filter_congr
        intro y _
        by_cases h3 : y ∈ acc <;> by_cases h4 : y = x <;>
          simp [h3, h4, List.mem_append]
      rw [h1, h2, foldl_setAdd_eq xs (acc ++ [x]), firstDedupRec_cons, hAB,
        List.append_assoc]
      rfl

/-- The JS `Set` dedup equals the recursive formulation. -/
theorem firstDedup_eq_rec (l : List String) :
    firstDedup l = firstDedupRec l := by
  unfold firstDedup
  rw [foldl_setAdd_eq l [], List.nil_append]
  apply congrArg
  rw [List.filter_eq_self]
  intro a _
  simp

/-- Positional alignment of the two dedups of a pair list on which equal
first components coincide with equal second components. -/
theorem dedup_align :
    ∀ (n : Nat) (pairs : List (String × String)), pairs.length ≤ n →
      (∀ p ∈ pairs, ∀ q ∈ pairs, (p.1 = q.1 ↔ p.2 = q.2)) →
      (firstDedupRec (pairs.map Prod.fst)).length =
        (firstDedupRec (pairs.map Prod.snd)).length ∧
      ∀ i (hi : i < (firstDedupRec (pairs.map Prod.fst)).length)
        (hj : i < (firstDedupRec (pairs.map Prod.snd)).length),
        ((firstDedupRec (pairs.map Prod.fst))[i],
         (firstDedupRec (pairs.map Prod.snd))[i]) ∈ pairs
  | 0, pairs, hle, _ => by
    have hnil : pairs = [] := List.eq_nil_of_length_eq_zero (by omega)
    subst hnil
    refine ⟨rfl, ?_⟩
    intro i hi hj
    rw [List.map_nil, firstDedupRec_nil] at hi
    simp at hi
  | n + 1, [], _, _ => by
    refine ⟨rfl, ?_⟩
    intro i hi hj
    rw [List.map_nil, firstDedupRec_nil] at hi
    simp at hi
  | n + 1, (c, lk) :: rest, hle, hcond => by
    have hfst : firstDedupRec (((c, lk) :: rest).map Prod.fst) =
        c :: firstDedupRec ((rest.filter
          (fun p => decide (p.1 ≠ c))).map Prod.fst) := by
      rw [List.map_cons]
      show firstDedupRec (c :: rest.map Prod.fst) = _
      rw [firstDedupRec_cons]
      congr 1
      apply congrArg
      rw [List.map_filter]
      rfl
    have hsnd : firstDedupRec (((c, lk) :: rest).map Prod.snd) =
        lk :: firstDedupRec ((rest.filter
          (fun p => decide (p.2 ≠ lk))).map Prod.snd) := by
      rw [List.map_cons]
      show firstDedupRec (lk :: rest.map Prod.snd) = _
      rw [firstDedupRec_cons]
      congr 1
      apply congrArg
      rw [List.map_filter]
      rfl
    have hfilters : rest.filter (fun p => decide (p.2 ≠ lk)) =
        rest.filter (fun p => decide (p.1 ≠ c)) := by
      apply List.filter_congr
      intro p hp
      have hiff := hcond p (List.mem_cons_of_mem _ hp) (c, lk)
        (List.mem_cons_self _ _)
      by_cases h1 : p.1 = c
      · simp [h1, hiff.mp h1]
      · have h2 : ¬ p.2 = lk := fun h => h1 (hiff.mpr h)
        simp [h1, h2]
    have hlen : (rest.filter (fun p => decide (p.1 ≠ c))).length ≤ n := by
      have h1 : (rest.filter (fun p => decide (p.1 ≠ c))).length ≤
          rest.length := List.length_filter_le _ _
      have h2 : rest.length ≤ n := by
        simp only [List.length_cons] at hle
        omega
      omega
    have hcond' : ∀ p ∈ rest.filter (fun p => decide (p.1 ≠ c)),
        ∀ q ∈ rest.filter (fun p => decide (p.1 ≠ c)),
        (p.1 = q.1 ↔ p.2 = q.2) := by
      intro p hp q hq
      exact hcond p (List.mem_cons_of_mem _ (List.mem_of_mem_filter hp))
        q (List.mem_cons_of_mem _ (List.mem_of_mem_filter hq))
    obtain ⟨ihlen, ihget⟩ :=
      dedup_align n (rest.filter (fun p => decide (p.1 ≠ c))) hlen hcond'
    rw [hfst, hsnd, hfilters]
    refine ⟨by
      simp only [List.length_cons]
      omega, ?_⟩
    intro i hi hj
    cases i with
    | zero =>
      simp only [List.getElem_cons_zero]
      exact List.mem_cons_self _ _
    | succ i =>
      have hi' : i < (firstDedupRec ((rest.filter
          (fun p => decide (p.1 ≠ c))).map Prod.fst)).length := by
        simp only [List.length_cons] at hi
        omega
      have hj' : i < (firstDedupRec ((rest.filter
          (fun p => decide (p.1 ≠ c))).map Prod.snd)).length := by
        simp only [List.length_cons] at hj
        omega
      simp only [List.getElem_cons_succ]
      exact List.mem_cons_of_mem _
        (List.mem_of_mem_filter (ihget i hi' hj'))

/-- C8, counterexample: on `alignIndex` (categories `A` and `B` share link
`L1`, category `C` has link `L2`) the question `alpha beta gamma` matches
all three categories; the assembled `categories` list is `[A, B, C]` and
`links` is `[L1, L2]`, so at index 1 the link `L2` is paired with category
`B`, whose link in the Knowledge Index is `L1` — positional alignment by
index fails as stated. -/
theorem dedupAlign_c8_counterexample :
    ((AskAndrew.searchContext alignIndex "alpha beta gamma").categories)[1]? =
      some "B" ∧
    ((AskAndrew.searchContext alignIndex "alpha beta gamma").links)[1]? =
      some "L2" ∧
    (alignIndex.find? (fun c => c.category = "B")).map Category.link =
      some "L1" ∧
    "L2" ≠ "L1" := by
  refine ⟨by rfl, by rfl, by rfl, by decide⟩

/-- The alignment lemma without the fuel parameter. -/
theorem dedup_align_apply (pairs : List (String × String))
    (hcond : ∀ p ∈ pairs, ∀ q ∈ pairs, (p.1 = q.1 ↔ p.2 = q.2)) :
    (firstDedupRec (pairs.map Prod.fst)).length =
      (firstDedupRec (pairs.map Prod.snd)).length ∧
    ∀ i (hi : i < (firstDedupRec (pairs.map Prod.fst)).length)
      (hj : i < (firstDedupRec (pairs.map Prod.snd)).length),
      ((firstDedupRec (pairs.map Prod.fst))[i],
       (firstDedupRec (pairs.map Prod.snd))[i]) ∈ pairs :=
  dedup_align pairs.length pairs (le_refl _) hcond

/-- C8, amended: for every non-empty matches sequence, `searchContext`
returns `categories` as the first-occurrence-order dedup of the matches'
category names and `links` as the first-occurrence-order dedup of their
links; and provided two matches have equal category names exactly when they
have equal links, the two lists have equal length and at every index valid
in both lists some match carries both `categories[i]` and `links[i]`
(positional alignment by index). -/
theorem dedupAlign_c8 (indexData : List Category) (q : String)
    (hne : (AskAndrew.performSearch (AskAndrew.buildKeywordMap indexData)
      q).matches ≠ []) :
    (AskAndrew.searchContext indexData q).categories =
      firstDedup ((AskAndrew.performSearch
        (AskAndrew.buildKeywordMap indexData) q).matches.map
        (fun m => m.category)) ∧
    (AskAndrew.searchContext indexData q).links =
      firstDedup ((AskAndrew.performSearch
        (AskAndrew.buildKeywordMap indexData) q).matches.map
        (fun m => m.link)) ∧
    ((∀ m1 ∈ (AskAndrew.performSearch
        (AskAndrew.buildKeywordMap indexData) q).matches,
      ∀ m2 ∈ (AskAndrew.performSearch
        (AskAndrew.buildKeywordMap indexData) q).matches,
      (m1.category = m2.category ↔ m1.link = m2.link)) →
     (AskAndrew.searchContext indexData q).categories.length =
        (AskAndrew.searchContext indexData q).links.length ∧
     ∀ i, i < (AskAndrew.searchContext indexData q).categories.length →
       i < (AskAndrew.searchContext indexData q).links.length →
       ∃ m ∈ (AskAndrew.performSearch
           (AskAndrew.buildKeywordMap indexData) q).matches,
         ((AskAndrew.searchContext indexData q).categories)[i]? =
           some m.category ∧
         ((AskAndrew.searchContext indexData q).links)[i]? =
           some m.link) := by
  obtain ⟨m0, ms, hm⟩ := List.exists_cons_of_ne_nil hne
  have hcats : (AskAndrew.searchContext indexData q).categories =
      firstDedup ((AskAndrew.performSearch
        (AskAndrew.buildKeywordMap indexData) q).matches.map
        (fun m => m.category)) := by
    rw [hm]
    simp only [AskAndrew.searchContext, hm]
  have hlinks : (AskAndrew.searchContext indexData q).links =
      firstDedup ((AskAndrew.performSearch
        (AskAndrew.buildKeywordMap indexData) q).matches.map
        (fun m => m.link)) := by
    rw [hm]
    simp only [AskAndrew.searchContext, hm]
  refine ⟨hcats, hlinks, ?_⟩
  intro hcond
  have hmapsC : (AskAndrew.performSearch
      (AskAndrew.buildKeywordMap indexData) q).matches.map
        (fun m => m.category) =
      ((AskAndrew.performSearch (AskAndrew.buildKeywordMap indexData)
        q).matches.map (fun m => (m.category, m.link))).map Prod.fst := by
    rw [List.map_map]
    rfl
  have hmapsL : (AskAndrew.performSearch
      (AskAndrew.buildKeywordMap indexData) q).matches.map
        (fun m => m.link) =
      ((AskAndrew.performSearch (AskAndrew.buildKeywordMap indexData)
        q).matches.map (fun m => (m.category, m.link))).map Prod.snd := by
    rw [List.map_map]
    rfl
  have hfC : (AskAndrew.searchContext indexData q).categories =
      firstDedupRec (((AskAndrew.performSearch
        (AskAndrew.buildKeywordMap indexData) q).matches.map
        (fun m => (m.category, m.link))).map Prod.fst) := by
    rw [hcats, firstDedup_eq_rec, hmapsC]
  have hfL : (AskAndrew.searchContext indexData q).links =
      firstDedupRec (((AskAndrew.performSearch
        (AskAndrew.buildKeywordMap indexData) q).matches.map
        (fun m => (m.category, m.link))).map Prod.snd) := by
    rw [hlinks, firstDedup_eq_rec, hmapsL]
  have hcondp : ∀ p ∈ (AskAndrew.performSearch
        (AskAndrew.buildKeywordMap indexData) q).matches.map
        (fun m => (m.category, m.link)),
      ∀ r ∈ (AskAndrew.performSearch
        (AskAndrew.buildKeywordMap indexData) q).matches.map
        (fun m => (m.category, m.link)),
      (p.1 = r.1 ↔ p.2 = r.2) := by
    intro p hp r hr
    rw [List.mem_map] at hp hr
    obtain ⟨m1, hm1, rfl⟩ := hp
    obtain ⟨m2, hm2, rfl⟩ := hr
    simpa using hcond m1 hm1 m2 hm2
  obtain ⟨halen, haget⟩ := dedup_align_apply _ hcondp
  refine ⟨?_, ?_⟩
  · rw [hfC, hfL, halen]
  · intro i hi hj
    rw [hfC] at hi
    rw [hfL] at hj
    have hmem := haget i hi hj
    rw [List.mem_map] at hmem
    obtain ⟨m, hmmem, hmeq⟩ := hmem
    rw [Prod.mk.injEq] at hmeq
    refine ⟨m, hmmem, ?_, ?_⟩
    · rw [hfC, List.getElem?_eq_getElem hi]
      exact congrArg some hmeq.1.symm
    · rw [hfL, List.getElem?_eq_getElem hj]
      exact congrArg some hmeq.2.symm

/-- C8, witness: a question matching two categories with distinct names and
distinct links gets aligned category and link lists. -/
theorem dedupAlign_c8_witness :
    (AskAndrew.searchContext specIndex8
        "neural network and tokenization").categories.length =
      (AskAndrew.searchContext specIndex8
        "neural network and tokenization").links.length ∧
    ∃ m ∈ (AskAndrew.performSearch (AskAndrew.buildKeywordMap specIndex8)
        "neural network and tokenization").matches,
      ((AskAndrew.searchContext specIndex8
        "neural network and tokenization").categories)[0]? =
        some m.category ∧
      ((AskAndrew.searchContext specIndex8
        "neural network and tokenization").links)[0]? = some m.link := by
  have h := dedupAlign_c8 specIndex8 "neural network and tokenization"
    (by decide)
  have h2 := h.2.2 (by decide)
  exact ⟨h2.1, h2.2 0 (by decide) (by decide)⟩

/-! ### C6 and C10: invariants of the matching loop -/

/-- An in-place update does not change the key list. -/
theorem keys_mapUpdate {β : Type} (m : List (String × β)) (k : String)
    (f : β → β) :
    (mapUpdate m k f).map Prod.fst = m.map Prod.fst := by
  unfold mapUpdate
  rw [List.map_map]
  apply List.map_congr_left
  intro p _
  show (if p.1 = k then (p.1, f p.2) else p).1 = p.1
  by_cases h : p.1 = k <;> simp [h]

/-- Membership in an in-place update. -/
theorem mem_mapUpdate {β : Type} (m : List (String × β)) (k : String)
    (f : β → β) (p' : String × β) :
    p' ∈ mapUpdate m k f ↔
      ∃ p ∈ m, p' = (if p.1 = k then (p.1, f p.2) else p) := by
  unfold mapUpdate
  rw [List.mem_map]
  constructor
  · rintro ⟨p, hp, he⟩
    exact ⟨p, hp, he.symm⟩
  · rintro ⟨p, hp, he⟩
    exact ⟨p, hp, he.symm⟩

/-- A successful lookup is a binding of the list. -/
theorem mapGet_some_mem {β : Type} :
    ∀ (m : List (String × β)) (k : String) (v : β),
      mapGet m k = some v → (k, v) ∈ m
  | [], _, _, h => by simp [mapGet] at h
  | (a, b) :: rest, k, v, h => by
    rw [mapGet_cons] at h
    by_cases hk : k = a
    · rw [if_pos hk] at h
      rw [Option.some_inj] at h
      subst h
      subst hk
      exact List.mem_cons_self _ _
    · rw [if_neg hk] at h
      exact List.mem_cons_of_mem _ (mapGet_some_mem rest k v h)

/-- With duplicate-free keys, bindings are determined by their key. -/
theorem assoc_key_inj {β : Type} :
    ∀ (m : List (String × β)), (m.map Prod.fst).Nodup →
      ∀ p ∈ m, ∀ p' ∈ m, p.1 = p'.1 → p = p'
  | [], _, p, hp, _, _, _ => absurd hp (List.not_mem_nil p)
  | q :: rest, hnd, p, hp, p', hp', hk => by
    rw [List.map_cons, List.nodup_cons] at hnd
    rcases List.mem_cons.mp hp with rfl | hp2
    · rcases List.mem_cons.mp hp' with rfl | hp2'
      · rfl
      · exfalso
        apply hnd.1
        rw [hk]
        exact List.mem_map_of_mem Prod.fst hp2'
    · rcases List.mem_cons.mp hp' with rfl | hp2'
      · exfalso
        apply hnd.1
        rw [← hk]
        exact List.mem_map_of_mem Prod.fst hp2
      · exact assoc_key_inj rest hnd.2 p hp2 p' hp2' hk

/-- A key in the key list has a binding. -/
theorem exists_mem_of_key {β : Type} (m : List (String × β)) (k : String)
    (h : k ∈ m.map Prod.fst) : ∃ v, (k, v) ∈ m := by
  rw [List.mem_map] at h
  obtain ⟨p, hp, he⟩ := h
  exact ⟨p.2, by rw [← he]; exact hp⟩

/-- The loop invariant of the n-gram matching fold: bucket keys are
duplicate-free document ids; every bucket's document carries its key as id
and stems from some keyword-map entry; every text stored in a bucket has a
keyword-map entry pointing at that bucket's key; and every matched keyword
lies in some bucket. -/
def BucketInv (km : List (String × KWEntry))
    (st : AskAndrew.MatchState) : Prop :=
  ((st.buckets.map Prod.fst).Nodup) ∧
  (∀ p ∈ st.buckets, p.2.document.id = p.1) ∧
  (∀ p ∈ st.buckets, ∀ t ∈ p.2.matchedKeywords,
    ∃ e, mapGet km t = some e ∧ e.document.id = p.1) ∧
  (∀ t ∈ st.matchedKeywords,
    ∃ p, p ∈ st.buckets ∧ t ∈ p.2.matchedKeywords) ∧
  (∀ p ∈ st.buckets, ∃ e t0, mapGet km t0 = some e ∧
    p.2.document = e.document ∧ p.2.category = e.category ∧
    p.2.link = e.link)

/-- Membership in a JS `Set` after `add`. -/
theorem mem_setAdd (s : List String) (y x : String) :
    x ∈ setAdd s y ↔ x ∈ s ∨ x = y := by
  unfold setAdd
  by_cases h : y ∈ s
  · rw [if_pos h]
    constructor
    · exact Or.inl
    · rintro (hx | rfl)
      · exact hx
      · exact h
  · rw [if_neg h]
    rw [List.mem_append, List.mem_singleton]

/-- Appending a fresh bucket built from a map entry preserves the
invariant. -/
theorem bucketInv_append (km : List (String × KWEntry)) (mk : List String)
    (B : List (String × QueryMatch)) (e : KWEntry) (t : String)
    (hget : mapGet km t = some e)
    (hI : BucketInv km ⟨mk, B⟩)
    (hfresh : e.document.id ∉ B.map Prod.fst) :
    BucketInv km ⟨mk, B ++
      [(e.document.id, ⟨e.document, e.category, e.link, []⟩)]⟩ := by
  obtain ⟨h1, h2, h3, h4, h5⟩ := hI
  refine ⟨?_, ?_, ?_, ?_, ?_⟩
  · show ((B ++ _).map Prod.fst).Nodup
    rw [List.map_append]
    rw [List.nodup_append]
    refine ⟨h1, List.nodup_singleton _, ?_⟩
    intro x hx hx'
    rw [List.map_singleton, List.mem_singleton] at hx'
    subst hx'
    exact hfresh hx
  · intro p hp
    rcases List.mem_append.mp hp with hp | hp
    · exact h2 p hp
    · rw [List.mem_singleton] at hp
      subst hp
      rfl
  · intro p hp t' ht'
    rcases List.mem_append.mp hp with hp | hp
    · exact h3 p hp t' ht'
    · rw [List.mem_singleton] at hp
      subst hp
      exact absurd ht' (List.not_mem_nil t')
  · intro t' ht'
    obtain ⟨p, hp, hpt⟩ := h4 t' ht'
    exact ⟨p, List.mem_append_left _ hp, hpt⟩
  · intro p hp
    rcases List.mem_append.mp hp with hp | hp
    · exact h5 p hp
    · rw [List.mem_singleton] at hp
      subst hp
      exact ⟨e, t, hget, rfl, rfl, rfl⟩

/-- Pushing the matched text onto the bucket of its entry's document id and
recording it in the matched set preserves the invariant, provided the bucket
key exists. -/
theorem bucketInv_update (km : List (String × KWEntry)) (mk : List String)
    (B : List (String × QueryMatch)) (e : KWEntry) (t : String)
    (hget : mapGet km t = some e)
    (hI : BucketInv km ⟨mk, B⟩)
    (hkey : e.document.id ∈ B.map Prod.fst) :
    BucketInv km ⟨setAdd mk t,
      mapUpdate B e.document.id
        (fun b => { b with matchedKeywords :=
          b.matchedKeywords ++ [t] })⟩ := by
  obtain ⟨h1, h2, h3, h4, h5⟩ := hI
  unfold BucketInv
  dsimp only
  refine ⟨?_, ?_, ?_, ?_, ?_⟩
  · rw [keys_mapUpdate]
    exact h1
  · intro p' hp'
    obtain ⟨p, hp, he⟩ := (mem_mapUpdate _ _ _ _).mp hp'
    by_cases hk : p.1 = e.document.id
    · rw [if_pos hk] at he
      rw [he]
      exact h2 p hp
    · rw [if_neg hk] at he
      rw [he]
      exact h2 p hp
  · intro p' hp' t' ht'
    obtain ⟨p, hp, he⟩ := (mem_mapUpdate _ _ _ _).mp hp'
    by_cases hk : p.1 = e.document.id
    · rw [if_pos hk] at he
      rw [he] at ht' ⊢
      show ∃ e', mapGet km t' = some e' ∧ e'.document.id = p.1
      have ht'' : t' ∈ p.2.matchedKeywords ++ [t] := ht'
      rcases List.mem_append.mp ht'' with h | h
      · exact h3 p hp t' h
      · rw [List.mem_singleton] at h
        subst h
        exact ⟨e, hget, hk.symm⟩
    · rw [if_neg hk] at he
      rw [he] at ht' ⊢
      exact h3 p hp t' ht'
  · intro t' ht'
    rcases (mem_setAdd _ _ _).mp ht' with ht' | rfl
    · obtain ⟨p, hp, hpt⟩ := h4 t' ht'
      refine ⟨if p.1 = e.document.id then (p.1,
        { p.2 with matchedKeywords := p.2.matchedKeywords ++ [t] })
        else p, ?_, ?_⟩
      · exact (mem_mapUpdate _ _ _ _).mpr ⟨p, hp, rfl⟩
      · by_cases hk : p.1 = e.document.id
        · rw [if_pos hk]
          exact List.mem_append_left _ hpt
        · rw [if_neg hk]
          exact hpt
    · obtain ⟨b, hb⟩ := exists_mem_of_key B e.document.id hkey
      refine ⟨(e.document.id,
        { b with matchedKeywords := b.matchedKeywords ++ [t'] }), ?_, ?_⟩
      · apply (mem_mapUpdate _ _ _ _).mpr
        exact ⟨(e.document.id, b), hb, by rw [if_pos rfl]⟩
      · exact List.mem_append_right _ (List.mem_singleton_self t')
  · intro p' hp'
    obtain ⟨p, hp, he⟩ := (mem_mapUpdate _ _ _ _).mp hp'
    obtain ⟨e0, t0, hg0, hd0, hc0, hl0⟩ := h5 p hp
    by_cases hk : p.1 = e.document.id
    · rw [if_pos hk] at he
      rw [he]
      exact ⟨e0, t0, hg0, hd0, hc0, hl0⟩
    · rw [if_neg hk] at he
      rw [he]
      exact ⟨e0, t0, hg0, hd0, hc0, hl0⟩

/-- One matching step preserves the invariant. -/
theorem matchStep_inv (km : List (String × KWEntry))
    (st : AskAndrew.MatchState) (ng : NGram)
    (h : BucketInv km st) :
    BucketInv km (AskAndrew.matchStep km st ng) := by
  cases hget : mapGet km ng.text with
  | none =>
    have hstep : AskAndrew.matchStep km st ng = st := by
      unfold AskAndrew.matchStep
      rw [hget]
    rw [hstep]
    exact h
  | some e =>
    have hstep : AskAndrew.matchStep km st ng =
        ⟨setAdd st.matchedKeywords ng.text,
         mapUpdate
           (if mapHas st.buckets e.document.id then st.buckets
            else st.buckets ++
              [(e.document.id, ⟨e.document, e.category, e.link, []⟩)])
           e.document.id
           (fun b => { b with matchedKeywords :=
             b.matchedKeywords ++ [ng.text] })⟩ := by
      unfold AskAndrew.matchStep
      rw [hget]
    rw [hstep]
    by_cases hhas : mapHas st.buckets e.document.id = true
    · rw [if_pos hhas]
      have hSt : BucketInv km ⟨st.matchedKeywords, st.buckets⟩ := h
      exact bucketInv_update km st.matchedKeywords st.buckets e ng.text hget
        hSt ((mapHas_iff _ _).mp hhas)
    · rw [if_neg hhas]
      have hSt : BucketInv km ⟨st.matchedKeywords, st.buckets⟩ := h
      have hfresh : e.document.id ∉ st.buckets.map Prod.fst := by
        intro hmem
        exact hhas ((mapHas_iff _ _).mpr hmem)
      have happ := bucketInv_append km st.matchedKeywords st.buckets e
        ng.text hget hSt hfresh
      have hkey2 : e.document.id ∈ (st.buckets ++
          [(e.document.id,
            (⟨e.document, e.category, e.link, []⟩ : QueryMatch))]).map
          Prod.fst := by
        rw [List.map_append, List.mem_append]
        right
        rw [List.map_singleton]
        exact List.mem_singleton_self _
      exact bucketInv_update km st.matchedKeywords
        (st.buckets ++
          [(e.document.id, ⟨e.document, e.category, e.link, []⟩)])
        e ng.text hget happ hkey2

/-- The whole matching loop satisfies the invariant. -/
theorem matchNGrams_inv (km : List (String × KWEntry)) :
    ∀ (ngrams : List NGram) (st : AskAndrew.MatchState),
      BucketInv km st →
      BucketInv km (ngrams.foldl (AskAndrew.matchStep km) st)
  | [], _, h => h
  | ng :: rest, st, h =>
    matchNGrams_inv km rest (AskAndrew.matchStep km st ng)
      (matchStep_inv km st ng h)

/-- The initial state satisfies the invariant. -/
theorem bucketInv_init (km : List (String × KWEntry)) :
    BucketInv km ⟨[], []⟩ := by
  refine ⟨List.nodup_nil, ?_, ?_, ?_, ?_⟩ <;> intro p hp <;>
    exact absurd hp (List.not_mem_nil p)

/-- The matching loop result satisfies the invariant. -/
theorem matchNGrams_inv_result (km : List (String × KWEntry))
    (ngrams : List NGram) :
    BucketInv km (AskAndrew.matchNGrams km ngrams) :=
  matchNGrams_inv km ngrams ⟨[], []⟩ (bucketInv_init km)

/-- The kept keywords are among the matched keywords. -/
theorem filterSubsets_subset (l : List String) :
    ∀ x ∈ AskAndrew.filterSubsets l, x ∈ l := by
  intro x hx
  unfold AskAndrew.filterSubsets at hx
  rcases mem_foldl_keepStep _ [] x hx with h | h
  · exact absurd h (List.not_mem_nil x)
  · exact (sortByWordCountDesc_perm l).mem_iff.mp h

/-- C10: the flattened kept-keyword list of `performSearch` equals, as a
set, the union of the returned matches' `matchedKeywords`: every kept
keyword occurs in exactly one surviving QueryMatch, namely one whose
document id is the id stored for that keyword in the keyword map, and no
QueryMatch carries a keyword outside the kept set. -/
theorem keptKeywords_partition_c10 (km : List (String × KWEntry))
    (q : String) :
    (∀ kw ∈ (AskAndrew.performSearch km q).matchedKeywords,
      ∃ m ∈ (AskAndrew.performSearch km q).matches,
        kw ∈ m.matchedKeywords ∧
        (∀ m' ∈ (AskAndrew.performSearch km q).matches,
          kw ∈ m'.matchedKeywords → m' = m) ∧
        ∃ e, mapGet km kw = some e ∧ m.document.id = e.document.id) ∧
    (∀ m ∈ (AskAndrew.performSearch km q).matches,
      ∀ kw ∈ m.matchedKeywords,
        kw ∈ (AskAndrew.performSearch km q).matchedKeywords) := by
  obtain ⟨h1, h2, h3, h4, h5⟩ :=
    matchNGrams_inv_result km (AskAndrew.extractNGrams q)
  constructor
  · intro kw hkw
    rw [performSearch_matchedKeywords] at hkw
    have hkw_st : kw ∈ (AskAndrew.matchNGrams km
        (AskAndrew.extractNGrams q)).matchedKeywords :=
      filterSubsets_subset _ kw hkw
    obtain ⟨p, hp, hpt⟩ := h4 kw hkw_st
    have hvalid : kw ∈ p.2.matchedKeywords.filter
        (fun k => (AskAndrew.filterSubsets (AskAndrew.matchNGrams km
          (AskAndrew.extractNGrams q)).matchedKeywords).contains k) :=
      List.mem_filter.mpr ⟨hpt, by simpa using hkw⟩
    have hlen : (p.2.matchedKeywords.filter
        (fun k => (AskAndrew.filterSubsets (AskAndrew.matchNGrams km
          (AskAndrew.extractNGrams q)).matchedKeywords).contains k)).length
        > 0 :=
      List.length_pos.mpr (List.ne_nil_of_mem hvalid)
    have hmem_m := rebuildMatches_complete
      (AskAndrew.filterSubsets (AskAndrew.matchNGrams km
        (AskAndrew.extractNGrams q)).matchedKeywords)
      (AskAndrew.matchNGrams km (AskAndrew.extractNGrams q)).buckets
      p hp hlen
    refine ⟨({ p.2 with matchedKeywords := (p.2.matchedKeywords.filter
        (fun k => (AskAndrew.filterSubsets (AskAndrew.matchNGrams km
          (AskAndrew.extractNGrams q)).matchedKeywords).contains k)) } :
      QueryMatch), ?_, hvalid, ?_, ?_⟩
    · rw [performSearch_matches]
      exact hmem_m
    · intro m' hm' hkwm'
      rw [performSearch_matches] at hm'
      obtain ⟨p', hp', hlen', heq'⟩ := mem_rebuildMatches_imp _ _ m' hm'
      have hkw_p' : kw ∈ p'.2.matchedKeywords :=
        (List.mem_filter.mp (heq' ▸ hkwm')).1
      obtain ⟨e1, hg1, hid1⟩ := h3 p hp kw hpt
      obtain ⟨e2, hg2, hid2⟩ := h3 p' hp' kw hkw_p'
      have hee : e1 = e2 := by
        rw [hg1] at hg2
        exact Option.some_inj.mp hg2
      have hkeys : p.1 = p'.1 := by
        rw [← hid1, ← hid2, hee]
      have hpp : p = p' := assoc_key_inj _ h1 p hp p' hp' hkeys
      rw [heq', ← hpp]
    · obtain ⟨e1, hg1, hid1⟩ := h3 p hp kw hpt
      refine ⟨e1, hg1, ?_⟩
      show p.2.document.id = e1.document.id
      rw [h2 p hp, ← hid1]
  · intro m hm kw hkw
    rw [performSearch_matches] at hm
    obtain ⟨p, hp, hlen, heq⟩ := mem_rebuildMatches_imp _ _ m hm
    rw [performSearch_matchedKeywords]
    have hc := (List.mem_filter.mp (heq ▸ hkw)).2
    simpa using hc

/-! ### C6: entries of a QueryMatch's matchedKeywords -/

/-- C6, counterexample: with the single keyword `token` and the question
`token token`, the same unigram fires twice and the only QueryMatch's
`matchedKeywords` array holds two copies of `token` — it is not a
duplicate-free set. -/
theorem matchedKeywords_dup_c6_counterexample :
    ((AskAndrew.performSearch (AskAndrew.buildKeywordMap tokenIndex)
        "token token").matches.map (fun m => m.matchedKeywords)) =
      [["token", "token"]] ∧
    ¬ (["token", "token"] : List String).Nodup := by
  exact ⟨rfl, by decide⟩

/-- A successful keyword-map lookup is an occurrence of the knowledge
index. -/
theorem mapGet_buildKeywordMap_mem (idx : List Category) (k : String)
    (e : KWEntry)
    (h : mapGet (AskAndrew.buildKeywordMap idx) k = some e) :
    (k, e) ∈ keywordOccurrences idx := by
  rw [buildKeywordMap_eq_foldl, mapGet_foldl_mapSet] at h
  cases hg : mapGet (keywordOccurrences idx).reverse k with
  | none =>
    rw [hg] at h
    exact absurd h (by simp [mapGet, Option.or])
  | some v =>
    rw [hg] at h
    have hve : some v = some e := h
    rw [Option.some_inj] at hve
    subst hve
    rw [← List.mem_reverse]
    exact mapGet_some_mem _ k v hg

/-- The shape of an occurrence: its entry's document belongs to some
category of the index and carries a raw keyword normalizing to the key. -/
theorem mem_keywordOccurrences (idx : List Category) (k : String)
    (e : KWEntry) (h : (k, e) ∈ keywordOccurrences idx) :
    ∃ cat ∈ idx, e.document ∈ cat.documents ∧
      ∃ raw ∈ e.document.keywords, AskAndrew.normalizeKeyword raw = k := by
  unfold keywordOccurrences at h
  rw [List.mem_flatMap] at h
  obtain ⟨cat, hcat, h⟩ := h
  rw [List.mem_flatMap] at h
  obtain ⟨doc, hdoc, h⟩ := h
  have h' := List.mem_of_mem_filter h
  rw [List.mem_map] at h'
  obtain ⟨raw, hraw, heq⟩ := h'
  rw [Prod.mk.injEq] at heq
  obtain ⟨hk, he⟩ := heq
  subst he
  exact ⟨cat, hcat, hdoc, raw, hraw, hk⟩

/-- C6, amended: each QueryMatch's `matchedKeywords` is a list with one
entry per matching n-gram occurrence — it may contain duplicates when the
same n-gram text occurs at several positions of the question (see the
counterexample) — and, when document ids are unique across the Knowledge
Index, every entry is the normalization of one of that match's document's
raw keywords. -/
theorem matchedKeywords_entries_c6 (indexData : List Category) (q : String)
    (hids : ∀ c1 ∈ indexData, ∀ d1 ∈ c1.documents,
      ∀ c2 ∈ indexData, ∀ d2 ∈ c2.documents, d1.id = d2.id → d1 = d2) :
    ∀ m ∈ (AskAndrew.performSearch
        (AskAndrew.buildKeywordMap indexData) q).matches,
      ∀ kw ∈ m.matchedKeywords,
        ∃ raw ∈ m.document.keywords,
          AskAndrew.normalizeKeyword raw = kw := by
  intro m hm kw hkw
  obtain ⟨h1, h2, h3, h4, h5⟩ :=
    matchNGrams_inv_result (AskAndrew.buildKeywordMap indexData)
      (AskAndrew.extractNGrams q)
  rw [performSearch_matches] at hm
  obtain ⟨p, hp, hlen, heq⟩ := mem_rebuildMatches_imp _ _ m hm
  have hkw_p : kw ∈ p.2.matchedKeywords :=
    (List.mem_filter.mp (heq ▸ hkw)).1
  obtain ⟨ekw, hgkw, hidkw⟩ := h3 p hp kw hkw_p
  obtain ⟨e0, t0, hg0, hd0, _, _⟩ := h5 p hp
  obtain ⟨cat1, hcat1, hdoc1, raw, hraw, hnorm⟩ :=
    mem_keywordOccurrences indexData kw ekw
      (mapGet_buildKeywordMap_mem indexData kw ekw hgkw)
  obtain ⟨cat0, hcat0, hdoc0, _, _, _⟩ :=
    mem_keywordOccurrences indexData t0 e0
      (mapGet_buildKeywordMap_mem indexData t0 e0 hg0)
  have hid_e0 : e0.document.id = p.1 := by
    rw [← hd0]
    exact h2 p hp
  have hsame : e0.document = ekw.document :=
    hids cat0 hcat0 e0.document hdoc0 cat1 hcat1 ekw.document hdoc1
      (by rw [hid_e0, hidkw])
  have hmdoc : m.document = ekw.document := by
    rw [heq]
    show p.2.document = ekw.document
    rw [hd0, hsame]
  rw [hmdoc]
  exact ⟨raw, hraw, hnorm⟩

/-- C6, witness: on the section-8 index (unique ids), the matched keyword
`neural network` of the neural-network question is the normalization of a
raw keyword of document `d1`. -/
theorem matchedKeywords_entries_c6_witness :
    ∃ raw ∈ specDoc1.keywords,
      AskAndrew.normalizeKeyword raw = "neural network" :=
  matchedKeywords_entries_c6 specIndex8 "What is a neural network?"
    (by decide)
    ⟨specDoc1, "AI Concepts", "https://example.com/ai", ["neural network"]⟩
    (by decide) "neural network" (by decide)
